import Mathlib

/-!
Mark-and-sweep dead code elimination (`MarkAndSweepDCE`).

A shallow embedding of `src/deadCodeElimination/DeadCodeElimination.cpp`.

The C++ pass works on LLVM IR objects through pointers.  Here an object is
identified by a natural number standing for its address (`InstId` for an
`Instruction*`, `BlockId` for a `BasicBlock*`); the two `std::set`s of the
class are lists without repetition and the work list is a list whose head is
the back of the `std::vector`.

The post-dominator tree and the reverse iterated dominance frontier are LLVM
analyses the pass only queries; they are carried by `PostDominatorTree` as
data.
-/

namespace DCE

/-- Address of an `Instruction` object. -/
abbrev InstId := Nat

/-- Address of a `BasicBlock` object. -/
abbrev BlockId := Nat

/-- An operand (`Value*`) of an instruction. -/
inductive Value where
  /-- The operand slot holds `nullptr` (as after `dropAllReferences`). -/
  | null : Value
  /-- The operand is an `Instruction`. -/
  | instruction (id : InstId) : Value
  /-- The operand is a `BasicBlock` (a successor of a terminator). -/
  | basicBlock (id : BlockId) : Value
  /-- The operand is a `GlobalVariable`. -/
  | globalVariable (id : Nat) : Value
  /-- The operand is a function `Argument`; the flag says whether its type is a `PointerType`. -/
  | argument (index : Nat) (isPointerType : Bool) : Value
  /-- Any other constant. -/
  | constant (c : Int) : Value
  deriving DecidableEq, Repr

/-- Instruction kinds: the first seven are the `TerminatorInst` subclasses. -/
inductive Opcode where
  | ret | br | switch | indirectbr | invoke | resume | unreachable
  | alloca | load | store | phi | call | icmp | binop | other
  deriving DecidableEq, Repr

/-- The test `isa<TerminatorInst>`. -/
def Opcode.isTerminator : Opcode → Bool
  | .ret | .br | .switch | .indirectbr | .invoke | .resume | .unreachable => true
  | _ => false

/-- An LLVM instruction: its address, its parent block, its kind and operand list.
`writesMemory` and `mayThrow` stand for what LLVM derives from volatility and call
attributes for instructions other than stores. -/
structure Instruction where
  id : InstId
  parent : BlockId
  opcode : Opcode
  operands : List Value
  writesMemory : Bool
  mayThrow : Bool
  deriving DecidableEq, Repr

/-- The test `isa<TerminatorInst> ( instruction )`. -/
def Instruction.isTerminator (instruction : Instruction) : Bool :=
  instruction.opcode.isTerminator

/-- LLVM's `Instruction::mayWriteToMemory`: always true for a store, otherwise given by
the attributes of the instruction. -/
def Instruction.mayWriteToMemory (instruction : Instruction) : Bool :=
  instruction.opcode == Opcode.store || instruction.writesMemory

/-- LLVM's `Instruction::mayHaveSideEffects`: `mayWriteToMemory ( ) || mayThrow ( )`. -/
def Instruction.mayHaveSideEffects (instruction : Instruction) : Bool :=
  instruction.mayWriteToMemory || instruction.mayThrow

/-- LLVM's `BranchInst::isUnconditional`: the branch has one operand (its target). -/
def Instruction.isUnconditional (instruction : Instruction) : Bool :=
  instruction.operands.length == 1

/-- LLVM's `Instruction::dropAllReferences`: every operand slot is set to `nullptr`. -/
def Instruction.dropAllReferences (instruction : Instruction) : Instruction :=
  { instruction with operands := instruction.operands.map (fun _ => Value.null) }

/-- The test `isa<GlobalVariable> ( value )`. -/
def Value.isGlobalVariable : Value → Bool
  | .globalVariable _ => true
  | _ => false

/-- The test: `value` is an `Argument` whose type is a `PointerType`. -/
def Value.isArgumentPassedByPointer : Value → Bool
  | .argument _ isPointerType => isPointerType
  | _ => false

/-- A basic block: its address and its instructions in program order. -/
structure BasicBlock where
  id : BlockId
  instructions : List Instruction
  deriving DecidableEq, Repr

/-- LLVM's `BasicBlock::getTerminator`: the last instruction when it is a terminator,
`nullptr` otherwise. -/
def BasicBlock.getTerminator (basicBlock : BasicBlock) : Option Instruction :=
  match basicBlock.instructions.getLast? with
  | some last => if last.isTerminator then some last else none
  | none => none

/-- A function: its blocks in layout order; the first one is the entry block. -/
structure Function where
  blocks : List BasicBlock
  deriving DecidableEq, Repr

/-- The instructions of the function in the order of `inst_begin .. inst_end`. -/
def Function.instructions (function : Function) : List Instruction :=
  function.blocks.flatMap BasicBlock.instructions

/-- The object behind an `Instruction*`. -/
def Function.getInstruction (function : Function) (id : InstId) : Option Instruction :=
  function.instructions.find? (fun instruction => instruction.id == id)

/-- The object behind a `BasicBlock*`. -/
def Function.getBlock (function : Function) (id : BlockId) : Option BasicBlock :=
  function.blocks.find? (fun basicBlock => basicBlock.id == id)

/-- LLVM's `predecessors ( basicBlock )`: the parents of the terminator instructions that
use the block as an operand.  LLVM walks the use list of the block, whose order is not fixed
by the text of the function; here the users are listed in function order and once each.  The
order does not change which instructions end up in `aliveInstructions`.  It does decide the
order of the pushes of lines 138-139, and with it which terminators are inserted there before
`mark ( Instruction* )` reaches them, so `aliveBasicBlocks` can depend on it. -/
def Function.predecessors (function : Function) (basicBlock : BlockId) : List BlockId :=
  (function.instructions.filter
    (fun user => user.isTerminator && user.operands.contains (Value.basicBlock basicBlock))).map
    Instruction.parent

/-- The successors of a block: the block operands of its terminator. -/
def Function.successors (function : Function) (basicBlock : BlockId) : List BlockId :=
  match function.getBlock basicBlock with
  | some block =>
    match block.getTerminator with
    | some terminator =>
      terminator.operands.filterMap
        (fun value => match value with
          | Value.basicBlock target => some target
          | _ => none)
    | none => []
  | none => []

/-- A `DomTreeNodeBase < BasicBlock > *`: `nullptr`, or a node with its block (`none` for the
virtual root, whose block is `nullptr`) and its immediate dominator. -/
inductive DomTreeNode where
  | nullptr : DomTreeNode
  | node (getBlock : Option BlockId) (getIDom : DomTreeNode) : DomTreeNode
  deriving DecidableEq, Repr

/-- The analyses the pass queries.  `getIDom block` is
`postDominatorTree.getNode ( block )->getIDom ( )` (every block has a node in the tree);
`reverseIDF block` is what `ReverseIDFCalculator` computes for the defining set `{ block }`.
Both are inputs: nothing is assumed about how they relate to the function. -/
structure PostDominatorTree where
  getIDom : BlockId → DomTreeNode
  reverseIDF : BlockId → List BlockId

/-- The state of the class `MarkAndSweepDCE`. -/
structure MarkAndSweepDCE where
  function : Function
  postDominatorTree : PostDominatorTree
  aliveInstructions : List InstId
  aliveBasicBlocks : List BlockId
  instructionWorkList : List Instruction

/-- The constructor: the two sets and the work list start empty. -/
def MarkAndSweepDCE.new (function : Function) (postDominatorTree : PostDominatorTree) :
    MarkAndSweepDCE :=
  { function := function
    postDominatorTree := postDominatorTree
    aliveInstructions := []
    aliveBasicBlocks := []
    instructionWorkList := [] }

/-- `MarkAndSweepDCE::isLive` (lines 47-79). -/
def MarkAndSweepDCE.isLive (instruction : Instruction) : Bool :=
  if instruction.opcode = Opcode.ret then
    true
  else if instruction.mayHaveSideEffects then
    if instruction.mayWriteToMemory then
      if instruction.opcode = Opcode.store then
        let isOperandGlobal := instruction.operands.any Value.isGlobalVariable
        let isOperandArgumentPassedByPointer :=
          instruction.operands.any Value.isArgumentPassedByPointer
        isOperandGlobal || isOperandArgumentPassedByPointer
      else
        true
    else
      true
  else
    false

/-- `MarkAndSweepDCE::mark ( Instruction * )` (lines 81-92). -/
def MarkAndSweepDCE.markInstruction (self : MarkAndSweepDCE) (instruction : Instruction) :
    MarkAndSweepDCE :=
  if instruction.id ∈ self.aliveInstructions then
    self
  else
    { self with
      aliveInstructions := instruction.id :: self.aliveInstructions
      aliveBasicBlocks := self.aliveBasicBlocks.insert instruction.parent
      instructionWorkList := instruction :: self.instructionWorkList }

/-- `MarkAndSweepDCE::initialize` (lines 94-105). -/
def MarkAndSweepDCE.initializeLiveSet (self : MarkAndSweepDCE) : MarkAndSweepDCE :=
  self.function.instructions.foldl
    (fun state instruction =>
      if MarkAndSweepDCE.isLive instruction then state.markInstruction instruction else state)
    self

/-- `MarkAndSweepDCE::getControlDependencies` (lines 108-117). -/
def MarkAndSweepDCE.getControlDependencies (self : MarkAndSweepDCE) (basicBlock : BlockId) :
    List BlockId :=
  self.postDominatorTree.reverseIDF basicBlock

/-- The terminator of the block behind a `BasicBlock*`. -/
def Function.getTerminator (function : Function) (basicBlock : BlockId) : Option Instruction :=
  match function.getBlock basicBlock with
  | some block => block.getTerminator
  | none => none

/-- Lines 129-131: an operand that is an instruction is marked.  The operand pointer is
followed with `getInstruction`; in LLVM IR an instruction operand always points to an
instruction of the same function, and an address that is not of the function is skipped. -/
def MarkAndSweepDCE.markOperand (self : MarkAndSweepDCE) (value : Value) : MarkAndSweepDCE :=
  match value with
  | Value.instruction id =>
    match self.function.getInstruction id with
    | some operand => self.markInstruction operand
    | none => self
  | _ => self

/-- Lines 128-132: mark the operands of the current instruction. -/
def MarkAndSweepDCE.markOperands (self : MarkAndSweepDCE) (currentInstruction : Instruction) :
    MarkAndSweepDCE :=
  currentInstruction.operands.foldl MarkAndSweepDCE.markOperand self

/-- Lines 137-140: the terminator of a predecessor is inserted into `aliveInstructions` and,
when it was not there, pushed on the work list; `aliveBasicBlocks` is not touched here.  A
block without terminator (for which `getTerminator` is `nullptr`, which the C++ code would
dereference) is outside the inputs of the pass and is skipped. -/
def MarkAndSweepDCE.markPredecessor (self : MarkAndSweepDCE) (basicBlock : BlockId) :
    MarkAndSweepDCE :=
  match self.function.getTerminator basicBlock with
  | some terminator =>
    if terminator.id ∈ self.aliveInstructions then
      self
    else
      { self with
        aliveInstructions := terminator.id :: self.aliveInstructions
        instructionWorkList := terminator :: self.instructionWorkList }
  | none => self

/-- Lines 135-142: for a phi node, every predecessor of its parent block is handled. -/
def MarkAndSweepDCE.markPhiPredecessors (self : MarkAndSweepDCE)
    (currentInstruction : Instruction) : MarkAndSweepDCE :=
  if currentInstruction.opcode = Opcode.phi then
    (self.function.predecessors currentInstruction.parent).foldl
      MarkAndSweepDCE.markPredecessor self
  else
    self

/-- Lines 147-149: the terminator of a control dependency is marked (a block without
terminator is skipped, as in `markPredecessor`). -/
def MarkAndSweepDCE.markControlDependency (self : MarkAndSweepDCE) (basicBlock : BlockId) :
    MarkAndSweepDCE :=
  match self.function.getTerminator basicBlock with
  | some terminator => self.markInstruction terminator
  | none => self

/-- Lines 145-150: mark the terminator of every control dependency of the parent block. -/
def MarkAndSweepDCE.markControlDependencies (self : MarkAndSweepDCE)
    (currentInstruction : Instruction) : MarkAndSweepDCE :=
  (self.getControlDependencies currentInstruction.parent).foldl
    MarkAndSweepDCE.markControlDependency self

/-- One iteration of the loop of `MarkAndSweepDCE::mark ( )` for the popped instruction. -/
def MarkAndSweepDCE.markVisit (self : MarkAndSweepDCE) (currentInstruction : Instruction) :
    MarkAndSweepDCE :=
  ((self.markOperands currentInstruction).markPhiPredecessors
    currentInstruction).markControlDependencies currentInstruction

/-- The loop of `MarkAndSweepDCE::mark ( )` (lines 122-151), run for at most `fuel`
iterations. -/
def MarkAndSweepDCE.markLoop : Nat → MarkAndSweepDCE → MarkAndSweepDCE
  | 0, self => self
  | fuel + 1, self =>
    match self.instructionWorkList with
    | [] => self
    | currentInstruction :: rest =>
      MarkAndSweepDCE.markLoop fuel
        (MarkAndSweepDCE.markVisit { self with instructionWorkList := rest } currentInstruction)

/-- `MarkAndSweepDCE::mark ( )` (lines 119-152).  Every iteration pops an instruction of the
function that was not popped before, so as many iterations as the function has instructions
empty the work list (`mark_workList_empty`). -/
def MarkAndSweepDCE.mark (self : MarkAndSweepDCE) : MarkAndSweepDCE :=
  self.markLoop self.function.instructions.length

/-- The loop of lines 169-171 together with the test of line 174: walk from `node` towards
the root until a node whose block is in `aliveBasicBlocks`; `none` when the walk ends at
`nullptr`. -/
def DomTreeNode.findAlive (aliveBasicBlocks : List BlockId) : DomTreeNode → Option BlockId
  | .nullptr => none
  | .node none idom => DomTreeNode.findAlive aliveBasicBlocks idom
  | .node (some block) idom =>
    if block ∈ aliveBasicBlocks then some block
    else DomTreeNode.findAlive aliveBasicBlocks idom

/-- An address above every instruction of the function. -/
def Function.addressLimit (function : Function) : Nat :=
  (function.instructions.map Instruction.id).foldr max 0 + 1

/-- `BranchInst::Create ( ifTrue, insertBefore )`: a new unconditional branch in the block of
`insertBefore`.  Its address is new: distinct from every instruction of the function and from
the branches created for other instructions. -/
def BranchInst.Create (function : Function) (ifTrue : BlockId) (insertBefore : Instruction) :
    Instruction :=
  { id := function.addressLimit + insertBefore.id
    parent := insertBefore.parent
    opcode := Opcode.br
    operands := [Value.basicBlock ifTrue]
    writesMemory := false
    mayThrow := false }

/-- What the body of the first loop of `sweep` (lines 159-185) does at `currentInstruction`:
the instructions that stand at its place afterwards, and what is pushed on
`deadInstructions`. -/
def MarkAndSweepDCE.sweepVisit (self : MarkAndSweepDCE) (currentInstruction : Instruction) :
    List Instruction × List InstId :=
  if currentInstruction.id ∈ self.aliveInstructions then
    ([currentInstruction], [])
  else if currentInstruction.isTerminator then
    if currentInstruction.opcode = Opcode.br then
      if !currentInstruction.isUnconditional then
        match DomTreeNode.findAlive self.aliveBasicBlocks
            (self.postDominatorTree.getIDom currentInstruction.parent) with
        | some block =>
          ([BranchInst.Create self.function block currentInstruction,
            currentInstruction.dropAllReferences], [currentInstruction.id])
        | none => ([currentInstruction], [])
      else
        ([currentInstruction], [])
    else
      ([currentInstruction], [])
  else
    ([currentInstruction.dropAllReferences], [currentInstruction.id])

/-- The function after the first loop of `sweep`.  The body of the loop acts only at the place
of the current instruction (the new branch is inserted right before it, and only its own
operands are dropped), so the loop replaces each instruction by what `sweepVisit` leaves at
its place. -/
def MarkAndSweepDCE.sweepFunction (self : MarkAndSweepDCE) : Function :=
  { blocks := self.function.blocks.map
      (fun basicBlock =>
        { basicBlock with
          instructions := basicBlock.instructions.flatMap
            (fun instruction => (self.sweepVisit instruction).1) }) }

/-- The vector `deadInstructions` after the first loop of `sweep`. -/
def MarkAndSweepDCE.deadInstructions (self : MarkAndSweepDCE) : List InstId :=
  self.function.instructions.flatMap (fun instruction => (self.sweepVisit instruction).2)

/-- LLVM's `Instruction::eraseFromParent`. -/
def Function.eraseFromParent (function : Function) (instruction : InstId) : Function :=
  { blocks := function.blocks.map
      (fun basicBlock =>
        { basicBlock with
          instructions := basicBlock.instructions.filter (fun i => i.id != instruction) }) }

/-- `MarkAndSweepDCE::sweep` (lines 154-192): the function after the sweep and the returned
flag. -/
def MarkAndSweepDCE.sweep (self : MarkAndSweepDCE) : Function × Bool :=
  (self.deadInstructions.foldl Function.eraseFromParent self.sweepFunction,
    self.deadInstructions.length != 0)

/-- `MarkAndSweepDCE::apply` (lines 194-199): the function after the pass and `changed`. -/
def MarkAndSweepDCE.apply (self : MarkAndSweepDCE) : Function × Bool :=
  self.initializeLiveSet.mark.sweep

/-- The object when `sweep` starts in `MarkAndSweepDCE ( function, postDominatorTree ).apply ( )`:
it holds the final live set. -/
def MarkAndSweepDCE.marked (function : Function) (postDominatorTree : PostDominatorTree) :
    MarkAndSweepDCE :=
  (MarkAndSweepDCE.new function postDominatorTree).initializeLiveSet.mark

/-- `MarkAndSweepDCEWrapper::runOnFunction` (lines 206-215) with the post-dominator tree it
obtains from the analysis pass. -/
def runOnFunction (function : Function) (postDominatorTree : PostDominatorTree) :
    Function × Bool :=
  (MarkAndSweepDCE.new function postDominatorTree).apply

/-- `StoreInst::getPointerOperand`: the address operand of a store is its operand 1. -/
def Instruction.getPointerOperand (instruction : Instruction) : Option Value :=
  instruction.operands[1]?

/-- The instruction is present in its block in `function`. -/
def Function.Contains (function : Function) (block : BlockId) (instruction : Instruction) :
    Prop :=
  ∃ basicBlock ∈ function.blocks, basicBlock.id = block ∧ instruction ∈ basicBlock.instructions

/-- What the second loop of `sweep` leaves of what stood at the place of `instruction` after
the first loop, when no other instruction shares its address. -/
def MarkAndSweepDCE.sweepResult (self : MarkAndSweepDCE) (instruction : Instruction) :
    List Instruction :=
  (self.sweepVisit instruction).1.filter
    (fun i => decide (i.id ∉ (self.sweepVisit instruction).2))

/-- The block after both loops of `sweep`. -/
def MarkAndSweepDCE.sweepBlock (self : MarkAndSweepDCE) (basicBlock : BasicBlock) : BasicBlock :=
  { id := basicBlock.id
    instructions := (basicBlock.instructions.flatMap
      (fun instruction => (self.sweepVisit instruction).1)).filter
      (fun i => decide (i.id ∉ self.deadInstructions)) }

/-- No two instructions of the function have the same address. -/
def Function.UniqueAddresses (function : Function) : Prop :=
  (function.instructions.map Instruction.id).Nodup

/-- The live set fits the function: the set and the work list have no repetitions, the work
list holds instructions of the function that are in the set, and the set holds addresses of
instructions of the function. -/
structure MarkAndSweepDCE.Consistent (state : MarkAndSweepDCE) : Prop where
  alive_nodup : state.aliveInstructions.Nodup
  workList_nodup : (state.instructionWorkList.map Instruction.id).Nodup
  workList_mem : ∀ w ∈ state.instructionWorkList,
    w ∈ state.function.instructions ∧ w.id ∈ state.aliveInstructions
  alive_mem : ∀ id ∈ state.aliveInstructions, ∃ i ∈ state.function.instructions, i.id = id

/-- The state is consistent and `popped` instructions of the live set are no longer on the
work list. -/
def MarkAndSweepDCE.Popped (state : MarkAndSweepDCE) (popped : Nat) : Prop :=
  state.Consistent ∧
    state.aliveInstructions.length = state.instructionWorkList.length + popped

/-- Instruction `i` directly requires instruction `j`: `j` is an operand of `i`, or `i` is a
phi and `j` is the terminator of a predecessor of its parent block, or `j` is the terminator
of a control dependency of the parent block of `i`. -/
def Requires (function : Function) (postDominatorTree : PostDominatorTree)
    (i j : Instruction) : Prop :=
  (j ∈ function.instructions ∧ Value.instruction j.id ∈ i.operands) ∨
  (i.opcode = Opcode.phi ∧
    ∃ p ∈ function.predecessors i.parent, function.getTerminator p = some j) ∨
  (∃ b ∈ postDominatorTree.reverseIDF i.parent, function.getTerminator b = some j)

/-- Every live instruction of the function is in `pending`, or on the work list, or has all
the instructions it requires in the live set. -/
def MarkAndSweepDCE.Closed (state : MarkAndSweepDCE) (pending : List Instruction) : Prop :=
  ∀ i ∈ state.function.instructions, i.id ∈ state.aliveInstructions →
    i ∈ pending ∨ i ∈ state.instructionWorkList ∨
      ∀ j, Requires state.function state.postDominatorTree i j →
        j.id ∈ state.aliveInstructions

/-- The block ends in exactly one terminator: its last instruction is a terminator and no
other instruction is. -/
def BasicBlock.endsInOneTerminator (basicBlock : BasicBlock) : Bool :=
  match basicBlock.instructions.reverse with
  | [] => false
  | last :: before => last.isTerminator && before.all (fun i => !i.isTerminator)

/-- Every block of the function ends in exactly one terminator. -/
def Function.BlocksTerminated (function : Function) : Prop :=
  ∀ basicBlock ∈ function.blocks, basicBlock.endsInOneTerminator = true

/-- A well-formed function: instructions have distinct addresses, blocks have distinct
addresses, every instruction has the block that holds it as its parent, and every block ends
in exactly one terminator. -/
def Function.WellFormed (function : Function) : Prop :=
  function.UniqueAddresses ∧ (function.blocks.map BasicBlock.id).Nodup ∧
    (∀ basicBlock ∈ function.blocks, ∀ i ∈ basicBlock.instructions, i.parent = basicBlock.id) ∧
    function.BlocksTerminated

instance (function : Function) : Decidable function.UniqueAddresses := by
  unfold Function.UniqueAddresses; infer_instance

instance (function : Function) : Decidable function.BlocksTerminated := by
  unfold Function.BlocksTerminated; infer_instance

instance (function : Function) : Decidable function.WellFormed := by
  unfold Function.WellFormed; infer_instance

/-- The blocks on the ancestor chain of a post-dominator tree node, nearest first: the block
of the node, of its immediate dominator, and so on to the root (the virtual root has no
block). -/
def DomTreeNode.chain : DomTreeNode → List BlockId
  | .nullptr => []
  | .node none idom => idom.chain
  | .node (some block) idom => block :: idom.chain

/-- There is an edge from `a` to `b`: the terminator of `a` has `b` as a successor. -/
def Function.Edge (function : Function) (a b : BlockId) : Prop :=
  b ∈ function.successors a

/-- The block is reachable from the entry block through successor edges. -/
def Function.Reachable (function : Function) (block : BlockId) : Prop :=
  ∃ entry, function.blocks.head? = some entry ∧
    Relation.ReflTransGen function.Edge entry.id block

/-- The instruction with this address was deleted: no instruction of `after` has it. -/
def Function.Lacks (after : Function) (instruction : Instruction) : Prop :=
  ∀ x ∈ after.instructions, x.id ≠ instruction.id

instance (after : Function) (instruction : Instruction) :
    Decidable (after.Lacks instruction) := by
  unfold Function.Lacks; infer_instance

instance (function : Function) (block : BlockId) (instruction : Instruction) :
    Decidable (function.Contains block instruction) := by
  unfold Function.Contains; infer_instance

/-- `next` arises from `state` by marking instructions: nothing leaves the two sets or the
work list, and every instruction that enters `aliveInstructions` is on the work list. -/
structure MarkAndSweepDCE.Pushes (state next : MarkAndSweepDCE) : Prop where
  function_eq : next.function = state.function
  tree_eq : next.postDominatorTree = state.postDominatorTree
  alive_subset : state.aliveInstructions ⊆ next.aliveInstructions
  blocks_subset : state.aliveBasicBlocks ⊆ next.aliveBasicBlocks
  workList_subset : state.instructionWorkList ⊆ next.instructionWorkList
  alive_new : ∀ id ∈ next.aliveInstructions,
    id ∈ state.aliveInstructions ∨ ∃ w ∈ next.instructionWorkList, w.id = id

/-- An instruction that neither writes memory (unless it is a store) nor throws. -/
def Example.instruction (id : InstId) (parent : BlockId) (opcode : Opcode)
    (operands : List Value) : Instruction :=
  { id := id, parent := parent, opcode := opcode, operands := operands
    writesMemory := false, mayThrow := false }

/-- The node of the virtual root of a post-dominator tree. -/
def Example.virtualRoot : DomTreeNode :=
  DomTreeNode.node none DomTreeNode.nullptr

/-- An `if` without effect: block 0 compares and branches to blocks 1 and 2, which both jump
to block 3, which returns. -/
def Example.diamond : Function :=
  { blocks :=
      [ { id := 0
          instructions :=
            [ Example.instruction 1 0 Opcode.icmp [Value.argument 0 false, Value.constant 0],
              Example.instruction 2 0 Opcode.br
                [Value.instruction 1, Value.basicBlock 2, Value.basicBlock 1] ] },
        { id := 1, instructions := [Example.instruction 3 1 Opcode.br [Value.basicBlock 3]] },
        { id := 2, instructions := [Example.instruction 4 2 Opcode.br [Value.basicBlock 3]] },
        { id := 3, instructions := [Example.instruction 5 3 Opcode.ret []] } ] }

/-- The post-dominator tree of `diamond` (and of `merge`): block 3 post-dominates the other
blocks; blocks 1 and 2 are control dependent on block 0. -/
def Example.diamondTree : PostDominatorTree :=
  { getIDom := fun block =>
      if block = 3 then Example.virtualRoot
      else DomTreeNode.node (some 3) Example.virtualRoot
    reverseIDF := fun block => if block = 1 ∨ block = 2 then [0] else [] }

/-- The blocks of `diamond`, with a phi in block 3 whose value is returned. -/
def Example.merge : Function :=
  { blocks :=
      [ { id := 0
          instructions :=
            [ Example.instruction 1 0 Opcode.icmp [Value.argument 0 false, Value.constant 0],
              Example.instruction 2 0 Opcode.br
                [Value.instruction 1, Value.basicBlock 2, Value.basicBlock 1] ] },
        { id := 1, instructions := [Example.instruction 3 1 Opcode.br [Value.basicBlock 3]] },
        { id := 2, instructions := [Example.instruction 4 2 Opcode.br [Value.basicBlock 3]] },
        { id := 3
          instructions :=
            [ Example.instruction 5 3 Opcode.phi [Value.constant 1, Value.constant 2],
              Example.instruction 6 3 Opcode.ret [Value.instruction 5] ] } ] }

/-- One block: a store of a constant to a global variable, then a return. -/
def Example.globalStore : Function :=
  { blocks :=
      [ { id := 0
          instructions :=
            [ Example.instruction 1 0 Opcode.store [Value.constant 7, Value.globalVariable 0],
              Example.instruction 2 0 Opcode.ret [] ] } ] }

/-- The post-dominator tree of a function with one block. -/
def Example.singleBlockTree : PostDominatorTree :=
  { getIDom := fun _ => Example.virtualRoot
    reverseIDF := fun _ => [] }

/-- A `switch` without effect: block 0 computes a value and switches on it to block 1 or
block 2; block 1 jumps to block 2, which returns. -/
def Example.switchCase : Function :=
  { blocks :=
      [ { id := 0
          instructions :=
            [ Example.instruction 1 0 Opcode.binop [Value.argument 0 false, Value.constant 1],
              Example.instruction 2 0 Opcode.switch
                [Value.instruction 1, Value.basicBlock 2, Value.constant 0,
                  Value.basicBlock 1] ] },
        { id := 1, instructions := [Example.instruction 3 1 Opcode.br [Value.basicBlock 2]] },
        { id := 2, instructions := [Example.instruction 4 2 Opcode.ret []] } ] }

/-- The post-dominator tree of `switchCase`: block 2 post-dominates blocks 0 and 1; block 1
is control dependent on block 0. -/
def Example.switchCaseTree : PostDominatorTree :=
  { getIDom := fun block =>
      if block = 2 then Example.virtualRoot
      else DomTreeNode.node (some 2) Example.virtualRoot
    reverseIDF := fun block => if block = 1 then [0] else [] }

/-- A function that never returns: block 0 branches on an argument to block 1 or block 2,
each of which jumps to itself. -/
def Example.spin : Function :=
  { blocks :=
      [ { id := 0
          instructions :=
            [ Example.instruction 1 0 Opcode.br
                [Value.argument 0 false, Value.basicBlock 2, Value.basicBlock 1] ] },
        { id := 1, instructions := [Example.instruction 2 1 Opcode.br [Value.basicBlock 1]] },
        { id := 2, instructions := [Example.instruction 3 2 Opcode.br [Value.basicBlock 2]] } ] }

/-- The post-dominator tree of `spin`: no block post-dominates another; blocks 1 and 2 are
control dependent on block 0. -/
def Example.spinTree : PostDominatorTree :=
  { getIDom := fun _ => Example.virtualRoot
    reverseIDF := fun block => if block = 1 ∨ block = 2 then [0] else [] }

/-- The least set of instructions that contains every instruction of the function for which
`isLive` is true and is closed under `Requires`. -/
inductive Live (function : Function) (postDominatorTree : PostDominatorTree) :
    Instruction → Prop where
  | seed {i : Instruction} : i ∈ function.instructions → MarkAndSweepDCE.isLive i = true →
      Live function postDominatorTree i
  | required {i j : Instruction} : Live function postDominatorTree i →
      Requires function postDominatorTree i j → Live function postDominatorTree j

/-- Every address in the live set is that of an instruction of the least set `Live`, and the
work list holds instructions of `Live`. -/
structure MarkAndSweepDCE.Sound (state : MarkAndSweepDCE) : Prop where
  alive_live : ∀ a ∈ state.aliveInstructions, ∃ i ∈ state.function.instructions,
    i.id = a ∧ Live state.function state.postDominatorTree i
  workList_live : ∀ w ∈ state.instructionWorkList,
    Live state.function state.postDominatorTree w

/-- The loop of `initialize` (lines 98-104) when the instructions are visited in `order`. -/
def MarkAndSweepDCE.initializeInOrder (self : MarkAndSweepDCE) (order : List Instruction) :
    MarkAndSweepDCE :=
  order.foldl
    (fun state instruction =>
      if MarkAndSweepDCE.isLive instruction then state.markInstruction instruction else state)
    self

/-- One iteration of the loop of `mark ( )` in which the instruction taken from the work list
is any pending one (in the code it is the newest, `newer = []`). -/
inductive MarkAndSweepDCE.Takes : MarkAndSweepDCE → MarkAndSweepDCE → Prop where
  | take (self : MarkAndSweepDCE) (newer : List Instruction) (currentInstruction : Instruction)
      (older : List Instruction) :
      self.instructionWorkList = newer ++ currentInstruction :: older →
      MarkAndSweepDCE.Takes self
        (MarkAndSweepDCE.markVisit { self with instructionWorkList := newer ++ older }
          currentInstruction)

/-- `Run n self last`: `n` iterations of the loop of `mark ( )`, each taking any pending
instruction, lead from `self` to `last`. -/
inductive MarkAndSweepDCE.Run : Nat → MarkAndSweepDCE → MarkAndSweepDCE → Prop where
  | done (self : MarkAndSweepDCE) : MarkAndSweepDCE.Run 0 self self
  | next {n : Nat} {self middle last : MarkAndSweepDCE} :
      MarkAndSweepDCE.Takes self middle → MarkAndSweepDCE.Run n middle last →
      MarkAndSweepDCE.Run (n + 1) self last

/-- The loop of `mark ( )` with a first-in first-out work list: the instruction taken is the
oldest pending one. -/
def MarkAndSweepDCE.markLoopFifo : Nat → MarkAndSweepDCE → MarkAndSweepDCE
  | 0, self => self
  | fuel + 1, self =>
    match self.instructionWorkList.getLast? with
    | none => self
    | some currentInstruction =>
      MarkAndSweepDCE.markLoopFifo fuel
        (MarkAndSweepDCE.markVisit
          { self with instructionWorkList := self.instructionWorkList.dropLast }
          currentInstruction)

/-- One block: a local slot is allocated, a constant is stored to it, the slot is loaded, and
the loaded value is returned. -/
def Example.localSlot : Function :=
  { blocks :=
      [ { id := 0
          instructions :=
            [ Example.instruction 1 0 Opcode.alloca [Value.constant 1],
              Example.instruction 2 0 Opcode.store [Value.constant 7, Value.instruction 1],
              Example.instruction 3 0 Opcode.load [Value.instruction 1],
              Example.instruction 4 0 Opcode.ret [Value.instruction 3] ] } ] }

/-- An `if` without effect in front of a block that only jumps on: block 0 branches on an
argument to blocks 1 and 2, which both jump to block 3, which jumps to block 4; block 4 holds
a phi whose value it returns. -/
def Example.bypass : Function :=
  { blocks :=
      [ { id := 0
          instructions :=
            [ Example.instruction 1 0 Opcode.br
                [Value.argument 0 false, Value.basicBlock 2, Value.basicBlock 1] ] },
        { id := 1, instructions := [Example.instruction 2 1 Opcode.br [Value.basicBlock 3]] },
        { id := 2, instructions := [Example.instruction 3 2 Opcode.br [Value.basicBlock 3]] },
        { id := 3, instructions := [Example.instruction 4 3 Opcode.br [Value.basicBlock 4]] },
        { id := 4
          instructions :=
            [ Example.instruction 5 4 Opcode.phi [Value.constant 1],
              Example.instruction 6 4 Opcode.ret [Value.instruction 5] ] } ] }

/-- The post-dominator tree of `bypass`: block 3 is the immediate post-dominator of blocks 0,
1 and 2, block 4 that of block 3; blocks 1 and 2 are control dependent on block 0. -/
def Example.bypassTree : PostDominatorTree :=
  { getIDom := fun block =>
      if block = 4 then Example.virtualRoot
      else if block = 3 then DomTreeNode.node (some 4) Example.virtualRoot
      else DomTreeNode.node (some 3) (DomTreeNode.node (some 4) Example.virtualRoot)
    reverseIDF := fun block => if block = 1 ∨ block = 2 then [0] else [] }

/-- Between `state` and `next` instructions were only pushed: the work list and the live set
of `next` are those of `state` with the same instructions put in front. -/
def MarkAndSweepDCE.Appends (state next : MarkAndSweepDCE) : Prop :=
  ∃ pushed : List Instruction,
    next.instructionWorkList = pushed ++ state.instructionWorkList ∧
      next.aliveInstructions = pushed.map Instruction.id ++ state.aliveInstructions

/-- The instructions pushed on the work list between `before` and `self` when nothing was
popped in between: the part of the work list of `self` above that of `before`, newest
first. -/
def MarkAndSweepDCE.pushedSince (self before : MarkAndSweepDCE) : List Instruction :=
  self.instructionWorkList.take
    (self.instructionWorkList.length - before.instructionWorkList.length)

/-- The instructions pushed on the work list by the iterations of the loop of `mark ( )`,
newest first. -/
def MarkAndSweepDCE.markLoopPushed : Nat → MarkAndSweepDCE → List Instruction
  | 0, _ => []
  | fuel + 1, self =>
    match self.instructionWorkList with
    | [] => []
    | currentInstruction :: rest =>
      MarkAndSweepDCE.markLoopPushed fuel
          (MarkAndSweepDCE.markVisit { self with instructionWorkList := rest }
            currentInstruction) ++
        (MarkAndSweepDCE.markVisit { self with instructionWorkList := rest }
          currentInstruction).pushedSince { self with instructionWorkList := rest }

/-- Every push on the work list during `initialize ( )` and `mark ( )`, newest first. -/
def MarkAndSweepDCE.pushedInstructions (function : Function)
    (postDominatorTree : PostDominatorTree) : List Instruction :=
  (MarkAndSweepDCE.new function postDominatorTree).initializeLiveSet.markLoopPushed
      (MarkAndSweepDCE.new function postDominatorTree).initializeLiveSet.function.instructions.length ++
    (MarkAndSweepDCE.new function postDominatorTree).initializeLiveSet.pushedSince
      (MarkAndSweepDCE.new function postDominatorTree)

/-- The instructions popped from the work list by the iterations of the loop of `mark ( )`,
in the order in which they are popped. -/
def MarkAndSweepDCE.markLoopPopped : Nat → MarkAndSweepDCE → List Instruction
  | 0, _ => []
  | fuel + 1, self =>
    match self.instructionWorkList with
    | [] => []
    | currentInstruction :: rest =>
      currentInstruction ::
        MarkAndSweepDCE.markLoopPopped fuel
          (MarkAndSweepDCE.markVisit { self with instructionWorkList := rest }
            currentInstruction)

/-- Every pop from the work list during `mark ( )`, in order. -/
def MarkAndSweepDCE.poppedInstructions (function : Function)
    (postDominatorTree : PostDominatorTree) : List Instruction :=
  (MarkAndSweepDCE.new function postDominatorTree).initializeLiveSet.markLoopPopped
    (MarkAndSweepDCE.new function postDominatorTree).initializeLiveSet.function.instructions.length

/-! ## The analyses recomputed for a function -/

/-- The addresses of the blocks of the function, in layout order. -/
def Function.blockIds (function : Function) : List BlockId :=
  function.blocks.map BasicBlock.id

/-- The blocks from which control can leave the function on a path of at most `fuel` edges
that never enters the block `avoid` (any block may be entered when `avoid` is `none`); a path
ends in a block without successors. -/
def Function.exitsAvoiding (function : Function) (avoid : Option BlockId) :
    Nat → List BlockId
  | 0 =>
    function.blockIds.filter
      (fun block => some block != avoid && (function.successors block).isEmpty)
  | fuel + 1 =>
    function.blockIds.filter
      (fun block => some block != avoid &&
        ((function.successors block).isEmpty ||
          (function.successors block).any
            (fun successor => (function.exitsAvoiding avoid fuel).contains successor)))

/-- Block `b` post-dominates block `a`: every path from `a` out of the function passes
through `b`, that is, `a` is `b` or no path from `a` leaves the function avoiding `b`. -/
def Function.postDominates (function : Function) (b a : BlockId) : Bool :=
  a == b || !(function.exitsAvoiding (some b) function.blocks.length).contains a

/-- The dominance frontier of `x` in the reversed graph: the blocks `y` with a successor that
`x` post-dominates, while `x` does not strictly post-dominate `y` itself. -/
def Function.reverseFrontier (function : Function) (x : BlockId) : List BlockId :=
  function.blockIds.filter
    (fun y => (function.successors y).any (fun successor => function.postDominates x successor)
      && !(y != x && function.postDominates x y))

/-- The iterated dominance frontier of `{ a }` in the reversed graph after `fuel` rounds: the
frontier of `a` together with the frontiers of the blocks found so far. -/
def Function.reverseIteratedFrontier (function : Function) (a : BlockId) : Nat → List BlockId
  | 0 => function.reverseFrontier a
  | fuel + 1 =>
    function.blockIds.filter
      (fun y => (function.reverseFrontier a).contains y ||
        (function.reverseIteratedFrontier a fuel).any
          (fun x => (function.reverseFrontier x).contains y))

/-- The tree holds what the two analyses compute for the function, in which every block has
a path out of the function.  For every block `a` the ancestor chain of `getIDom a` lists the
strict post-dominators of `a`, each once and nearest first, and `reverseIDF a` lists, each
once, the blocks of the iterated dominance frontier of `{ a }` in the reversed graph. -/
def PostDominatorTree.ComputedFor (postDominatorTree : PostDominatorTree)
    (function : Function) : Prop :=
  ∀ a ∈ function.blockIds,
    a ∈ function.exitsAvoiding none function.blocks.length ∧
    (postDominatorTree.getIDom a).chain.Nodup ∧
    (∀ b ∈ (postDominatorTree.getIDom a).chain,
      b ∈ function.blockIds ∧ b ≠ a ∧ function.postDominates b a = true) ∧
    (∀ b ∈ function.blockIds, b ≠ a → function.postDominates b a = true →
      b ∈ (postDominatorTree.getIDom a).chain) ∧
    (postDominatorTree.getIDom a).chain.Pairwise
      (fun nearer farther => function.postDominates farther nearer = true) ∧
    (postDominatorTree.reverseIDF a).Nodup ∧
    (∀ y ∈ postDominatorTree.reverseIDF a,
      y ∈ function.reverseIteratedFrontier a function.blocks.length) ∧
    (∀ y ∈ function.reverseIteratedFrontier a function.blocks.length,
      y ∈ postDominatorTree.reverseIDF a)

instance (postDominatorTree : PostDominatorTree) (function : Function) :
    Decidable (postDominatorTree.ComputedFor function) := by
  unfold PostDominatorTree.ComputedFor; infer_instance

/-- A loop that retries: block 0 jumps to block 1, which holds a phi (0 on entry, 1 after a
retry) and branches to block 4 or block 2; block 2 waits in a loop of its own and then enters
block 3, which branches to block 4 or back to block 1; block 4 stores the phi to a global
variable and returns. -/
def Example.retry : Function :=
  { blocks :=
      [ { id := 0, instructions := [Example.instruction 1 0 Opcode.br [Value.basicBlock 1]] },
        { id := 1
          instructions :=
            [ Example.instruction 2 1 Opcode.phi [Value.constant 0, Value.constant 1],
              Example.instruction 3 1 Opcode.br
                [Value.argument 0 false, Value.basicBlock 2, Value.basicBlock 4] ] },
        { id := 2
          instructions :=
            [ Example.instruction 4 2 Opcode.br
                [Value.argument 1 false, Value.basicBlock 2, Value.basicBlock 3] ] },
        { id := 3
          instructions :=
            [ Example.instruction 5 3 Opcode.br
                [Value.argument 2 false, Value.basicBlock 1, Value.basicBlock 4] ] },
        { id := 4
          instructions :=
            [ Example.instruction 6 4 Opcode.store
                [Value.instruction 2, Value.globalVariable 0],
              Example.instruction 7 4 Opcode.ret [] ] } ] }

/-- The post-dominator tree of `retry`: block 4 is the immediate post-dominator of blocks 1
and 3, block 3 that of block 2, block 1 that of block 0.  Blocks 1 and 3 are control
dependent on blocks 1 and 3, block 2 on blocks 1, 2 and 3. -/
def Example.retryTree : PostDominatorTree :=
  { getIDom := fun block =>
      if block = 0 then DomTreeNode.node (some 1) (DomTreeNode.node (some 4) Example.virtualRoot)
      else if block = 2 then
        DomTreeNode.node (some 3) (DomTreeNode.node (some 4) Example.virtualRoot)
      else if block = 4 then Example.virtualRoot
      else DomTreeNode.node (some 4) Example.virtualRoot
    reverseIDF := fun block =>
      if block = 1 ∨ block = 3 then [1, 3] else if block = 2 then [1, 2, 3] else [] }

/-- What `apply ( )` makes of `retry` with `retryTree`: block 2 ends in a new branch to
block 4. -/
def Example.retryAfter : Function :=
  { blocks :=
      [ { id := 0, instructions := [Example.instruction 1 0 Opcode.br [Value.basicBlock 1]] },
        { id := 1
          instructions :=
            [ Example.instruction 2 1 Opcode.phi [Value.constant 0, Value.constant 1],
              Example.instruction 3 1 Opcode.br
                [Value.argument 0 false, Value.basicBlock 2, Value.basicBlock 4] ] },
        { id := 2, instructions := [Example.instruction 12 2 Opcode.br [Value.basicBlock 4]] },
        { id := 3
          instructions :=
            [ Example.instruction 5 3 Opcode.br
                [Value.argument 2 false, Value.basicBlock 1, Value.basicBlock 4] ] },
        { id := 4
          instructions :=
            [ Example.instruction 6 4 Opcode.store
                [Value.instruction 2, Value.globalVariable 0],
              Example.instruction 7 4 Opcode.ret [] ] } ] }

/-- The post-dominator tree of `retryAfter`: block 4 is the immediate post-dominator of
blocks 1, 2 and 3, block 1 that of block 0.  Block 1 is control dependent on block 3 only,
block 2 on blocks 1 and 3, block 3 on no block. -/
def Example.retryTreeAfter : PostDominatorTree :=
  { getIDom := fun block =>
      if block = 0 then DomTreeNode.node (some 1) (DomTreeNode.node (some 4) Example.virtualRoot)
      else if block = 4 then Example.virtualRoot
      else DomTreeNode.node (some 4) Example.virtualRoot
    reverseIDF := fun block =>
      if block = 1 then [3] else if block = 2 then [1, 3] else [] }

/-! ## Marking only adds -/

theorem MarkAndSweepDCE.Pushes.refl (self : MarkAndSweepDCE) : self.Pushes self :=
  ⟨rfl, rfl, fun _ h => h, fun _ h => h, fun _ h => h, fun _ h => Or.inl h⟩

theorem MarkAndSweepDCE.Pushes.trans {a b c : MarkAndSweepDCE} (hab : a.Pushes b)
    (hbc : b.Pushes c) : a.Pushes c :=
  ⟨hbc.function_eq.trans hab.function_eq, hbc.tree_eq.trans hab.tree_eq,
    fun _ h => hbc.alive_subset (hab.alive_subset h),
    fun _ h => hbc.blocks_subset (hab.blocks_subset h),
    fun _ h => hbc.workList_subset (hab.workList_subset h),
    fun id h => by
      rcases hbc.alive_new id h with h1 | h1
      · rcases hab.alive_new id h1 with h2 | ⟨w, hw, hid⟩
        · exact Or.inl h2
        · exact Or.inr ⟨w, hbc.workList_subset hw, hid⟩
      · exact Or.inr h1⟩

theorem foldl_pushes {α : Type} (step : MarkAndSweepDCE → α → MarkAndSweepDCE)
    (hstep : ∀ (state : MarkAndSweepDCE) (a : α), state.Pushes (step state a)) (l : List α)
    (self : MarkAndSweepDCE) : self.Pushes (l.foldl step self) := by
  induction l generalizing self with
  | nil => exact MarkAndSweepDCE.Pushes.refl self
  | cons a l ih => exact (hstep self a).trans (ih (step self a))

theorem foldl_invariant {α : Type} (step : MarkAndSweepDCE → α → MarkAndSweepDCE)
    (P : MarkAndSweepDCE → Prop) (l : List α)
    (hstep : ∀ (state : MarkAndSweepDCE) (a : α), a ∈ l → P state → P (step state a))
    (self : MarkAndSweepDCE) (h : P self) : P (l.foldl step self) := by
  induction l generalizing self with
  | nil => exact h
  | cons a l ih =>
    exact ih (fun s b hb => hstep s b (List.mem_cons_of_mem _ hb)) (step self a)
      (hstep self a (List.mem_cons_self _ _) h)

theorem foldl_achieves {α : Type} (step : MarkAndSweepDCE → α → MarkAndSweepDCE)
    (Q : α → MarkAndSweepDCE → Prop)
    (hstep : ∀ (state : MarkAndSweepDCE) (a : α), state.Pushes (step state a))
    (hmono : ∀ a s t, MarkAndSweepDCE.Pushes s t → Q a s → Q a t)
    (hdone : ∀ state a, Q a (step state a)) (l : List α) (self : MarkAndSweepDCE) :
    ∀ a ∈ l, Q a (l.foldl step self) := by
  induction l generalizing self with
  | nil => intro a ha; cases ha
  | cons x l ih =>
    intro a ha
    rcases List.mem_cons.mp ha with rfl | h
    · exact hmono _ _ _ (foldl_pushes step hstep l (step self a)) (hdone self a)
    · exact ih (step self x) a h

theorem markInstruction_pushes (self : MarkAndSweepDCE) (instruction : Instruction) :
    self.Pushes (self.markInstruction instruction) := by
  unfold MarkAndSweepDCE.markInstruction
  split
  · exact MarkAndSweepDCE.Pushes.refl self
  · refine ⟨rfl, rfl, fun _ h => List.mem_cons_of_mem _ h, fun _ h => List.mem_insert_of_mem h,
      fun _ h => List.mem_cons_of_mem _ h, fun id h => ?_⟩
    rcases List.mem_cons.mp h with rfl | h
    · exact Or.inr ⟨instruction, List.mem_cons_self _ _, rfl⟩
    · exact Or.inl h

theorem markInstruction_alive (self : MarkAndSweepDCE) (instruction : Instruction) :
    instruction.id ∈ (self.markInstruction instruction).aliveInstructions := by
  unfold MarkAndSweepDCE.markInstruction
  split
  · assumption
  · exact List.mem_cons_self _ _

theorem markOperand_pushes (self : MarkAndSweepDCE) (value : Value) :
    self.Pushes (self.markOperand value) := by
  unfold MarkAndSweepDCE.markOperand
  cases value with
  | instruction id =>
    dsimp only
    cases self.function.getInstruction id with
    | none => exact MarkAndSweepDCE.Pushes.refl self
    | some operand => exact markInstruction_pushes self operand
  | _ => exact MarkAndSweepDCE.Pushes.refl self

theorem markOperands_pushes (self : MarkAndSweepDCE) (currentInstruction : Instruction) :
    self.Pushes (self.markOperands currentInstruction) :=
  foldl_pushes _ markOperand_pushes _ self

theorem markPredecessor_pushes (self : MarkAndSweepDCE) (basicBlock : BlockId) :
    self.Pushes (self.markPredecessor basicBlock) := by
  unfold MarkAndSweepDCE.markPredecessor
  cases self.function.getTerminator basicBlock with
  | none => exact MarkAndSweepDCE.Pushes.refl self
  | some terminator =>
    dsimp only
    split
    · exact MarkAndSweepDCE.Pushes.refl self
    · refine ⟨rfl, rfl, fun _ h => List.mem_cons_of_mem _ h, fun _ h => h,
        fun _ h => List.mem_cons_of_mem _ h, fun id h => ?_⟩
      rcases List.mem_cons.mp h with rfl | h
      · exact Or.inr ⟨terminator, List.mem_cons_self _ _, rfl⟩
      · exact Or.inl h

theorem markPhiPredecessors_pushes (self : MarkAndSweepDCE) (currentInstruction : Instruction) :
    self.Pushes (self.markPhiPredecessors currentInstruction) := by
  unfold MarkAndSweepDCE.markPhiPredecessors
  split
  · exact foldl_pushes _ markPredecessor_pushes _ self
  · exact MarkAndSweepDCE.Pushes.refl self

theorem markControlDependency_pushes (self : MarkAndSweepDCE) (basicBlock : BlockId) :
    self.Pushes (self.markControlDependency basicBlock) := by
  unfold MarkAndSweepDCE.markControlDependency
  cases self.function.getTerminator basicBlock with
  | none => exact MarkAndSweepDCE.Pushes.refl self
  | some terminator => exact markInstruction_pushes self terminator

theorem markControlDependencies_pushes (self : MarkAndSweepDCE)
    (currentInstruction : Instruction) :
    self.Pushes (self.markControlDependencies currentInstruction) :=
  foldl_pushes _ markControlDependency_pushes _ self

theorem markVisit_pushes (self : MarkAndSweepDCE) (currentInstruction : Instruction) :
    self.Pushes (self.markVisit currentInstruction) :=
  ((markOperands_pushes self currentInstruction).trans
    (markPhiPredecessors_pushes _ currentInstruction)).trans
    (markControlDependencies_pushes _ currentInstruction)

theorem initializeLiveSet_pushes (self : MarkAndSweepDCE) :
    self.Pushes self.initializeLiveSet := by
  unfold MarkAndSweepDCE.initializeLiveSet
  apply foldl_pushes
  intro state instruction
  dsimp only
  split
  · exact markInstruction_pushes state instruction
  · exact MarkAndSweepDCE.Pushes.refl state

/-- The loop of `mark ( )` keeps the function and the tree and only adds to the two sets. -/
theorem markLoop_grows (fuel : Nat) (self : MarkAndSweepDCE) :
    (self.markLoop fuel).function = self.function ∧
      (self.markLoop fuel).postDominatorTree = self.postDominatorTree ∧
      self.aliveInstructions ⊆ (self.markLoop fuel).aliveInstructions ∧
      self.aliveBasicBlocks ⊆ (self.markLoop fuel).aliveBasicBlocks := by
  induction fuel generalizing self with
  | zero => exact ⟨rfl, rfl, fun _ h => h, fun _ h => h⟩
  | succ fuel ih =>
    unfold MarkAndSweepDCE.markLoop
    split
    · exact ⟨rfl, rfl, fun _ h => h, fun _ h => h⟩
    · next currentInstruction rest _ =>
      have hv := markVisit_pushes { self with instructionWorkList := rest } currentInstruction
      obtain ⟨h1, h2, h3, h4⟩ := ih
        (MarkAndSweepDCE.markVisit { self with instructionWorkList := rest } currentInstruction)
      exact ⟨h1.trans hv.function_eq, h2.trans hv.tree_eq,
        fun _ h => h3 (hv.alive_subset h), fun _ h => h4 (hv.blocks_subset h)⟩

/-- Every instruction of the function for which `isLive` holds is in `aliveInstructions`
after `initialize`. -/
theorem initializeLiveSet_seeds (self : MarkAndSweepDCE) (instruction : Instruction)
    (hmem : instruction ∈ self.function.instructions)
    (hlive : MarkAndSweepDCE.isLive instruction = true) :
    instruction.id ∈ self.initializeLiveSet.aliveInstructions := by
  unfold MarkAndSweepDCE.initializeLiveSet
  refine foldl_achieves _
    (fun i state => MarkAndSweepDCE.isLive i = true → i.id ∈ state.aliveInstructions)
    ?_ ?_ ?_ self.function.instructions self instruction hmem hlive
  · intro state i
    dsimp only
    split
    · exact markInstruction_pushes state i
    · exact MarkAndSweepDCE.Pushes.refl state
  · intro i s t hst h hl
    exact hst.alive_subset (h hl)
  · intro state i hl
    simp only [hl, if_true]
    exact markInstruction_alive state i

theorem marked_function (function : Function) (postDominatorTree : PostDominatorTree) :
    (MarkAndSweepDCE.marked function postDominatorTree).function = function :=
  (markLoop_grows _ _).1.trans (initializeLiveSet_pushes _).function_eq

theorem marked_tree (function : Function) (postDominatorTree : PostDominatorTree) :
    (MarkAndSweepDCE.marked function postDominatorTree).postDominatorTree = postDominatorTree :=
  (markLoop_grows _ _).2.1.trans (initializeLiveSet_pushes _).tree_eq

/-- Every instruction of the function for which `isLive` holds is in the final live set. -/
theorem marked_seeds (function : Function) (postDominatorTree : PostDominatorTree)
    (instruction : Instruction) (hmem : instruction ∈ function.instructions)
    (hlive : MarkAndSweepDCE.isLive instruction = true) :
    instruction.id ∈ (MarkAndSweepDCE.marked function postDominatorTree).aliveInstructions :=
  (markLoop_grows _ _).2.2.1
    (initializeLiveSet_seeds (MarkAndSweepDCE.new function postDominatorTree) instruction hmem hlive)

theorem apply_eq (function : Function) (postDominatorTree : PostDominatorTree) :
    (MarkAndSweepDCE.new function postDominatorTree).apply =
      (MarkAndSweepDCE.marked function postDominatorTree).sweep := rfl

/-! ## The sweep -/

theorem Function.mem_instructions {function : Function} {instruction : Instruction} :
    instruction ∈ function.instructions ↔
      ∃ basicBlock ∈ function.blocks, instruction ∈ basicBlock.instructions := by
  simp [Function.instructions, List.mem_flatMap]

theorem foldl_eraseFromParent (dead : List InstId) (function : Function) :
    (dead.foldl Function.eraseFromParent function).blocks =
      function.blocks.map (fun basicBlock =>
        { id := basicBlock.id
          instructions := basicBlock.instructions.filter (fun i => decide (i.id ∉ dead)) }) := by
  induction dead generalizing function with
  | nil => simp
  | cons d dead ih =>
    rw [List.foldl_cons, ih]
    simp only [Function.eraseFromParent, List.map_map]
    apply List.map_congr_left
    intro basicBlock _
    simp only [Function.comp, List.filter_filter, BasicBlock.mk.injEq, true_and]
    apply List.filter_congr
    intro i _
    by_cases h1 : i.id = d <;> by_cases h2 : i.id ∈ dead <;> simp [h1, h2]

theorem sweep_blocks (self : MarkAndSweepDCE) :
    self.sweep.1.blocks = self.function.blocks.map self.sweepBlock := by
  simp only [MarkAndSweepDCE.sweep, foldl_eraseFromParent, MarkAndSweepDCE.sweepFunction,
    List.map_map]
  rfl

theorem sweep_changed (self : MarkAndSweepDCE) :
    self.sweep.2 = true ↔ self.deadInstructions ≠ [] := by
  simp [MarkAndSweepDCE.sweep]

/-- The outcomes of the body of the first loop of `sweep`. -/
theorem sweepVisit_cases (self : MarkAndSweepDCE) (i : Instruction) :
    (self.sweepVisit i = ([i], []) ∧
        (i.id ∈ self.aliveInstructions ∨
          (i.isTerminator = true ∧
            (i.opcode ≠ Opcode.br ∨ i.isUnconditional = true ∨
              DomTreeNode.findAlive self.aliveBasicBlocks
                (self.postDominatorTree.getIDom i.parent) = none)))) ∨
    (self.sweepVisit i = ([i.dropAllReferences], [i.id]) ∧
        i.id ∉ self.aliveInstructions ∧ i.isTerminator = false) ∨
    (∃ block, self.sweepVisit i =
          ([BranchInst.Create self.function block i, i.dropAllReferences], [i.id]) ∧
        i.id ∉ self.aliveInstructions ∧ i.isTerminator = true ∧ i.opcode = Opcode.br ∧
        i.isUnconditional = false ∧
        DomTreeNode.findAlive self.aliveBasicBlocks
          (self.postDominatorTree.getIDom i.parent) = some block) := by
  unfold MarkAndSweepDCE.sweepVisit
  by_cases ha : i.id ∈ self.aliveInstructions
  · simp [ha]
  · by_cases ht : i.isTerminator = true
    · by_cases hb : i.opcode = Opcode.br
      · by_cases hu : i.isUnconditional = true
        · simp [ha, ht, hb, hu]
        · cases hf : DomTreeNode.findAlive self.aliveBasicBlocks
              (self.postDominatorTree.getIDom i.parent) with
          | none => simp [ha, ht, hb, hu, hf]
          | some block => simp [ha, ht, hb, hu, hf]
      · simp [ha, ht, hb]
    · simp [ha, ht]

theorem sweepVisit_alive (self : MarkAndSweepDCE) (i : Instruction)
    (h : i.id ∈ self.aliveInstructions) : self.sweepVisit i = ([i], []) := by
  unfold MarkAndSweepDCE.sweepVisit
  simp [h]

/-- What is pushed on `deadInstructions` at an instruction is nothing or its own address, and
only for an instruction outside the live set. -/
theorem sweepVisit_dead (self : MarkAndSweepDCE) (i : Instruction) (id : InstId)
    (h : id ∈ (self.sweepVisit i).2) : id = i.id ∧ i.id ∉ self.aliveInstructions := by
  rcases sweepVisit_cases self i with ⟨h1, _⟩ | ⟨h1, h2, _⟩ | ⟨block, h1, h2, _⟩
  · rw [h1] at h; cases h
  · rw [h1] at h; exact ⟨List.mem_singleton.mp h, h2⟩
  · rw [h1] at h; exact ⟨List.mem_singleton.mp h, h2⟩

theorem mem_deadInstructions {self : MarkAndSweepDCE} {id : InstId} :
    id ∈ self.deadInstructions ↔
      ∃ i ∈ self.function.instructions, id ∈ (self.sweepVisit i).2 := by
  simp [MarkAndSweepDCE.deadInstructions, List.mem_flatMap]

theorem deadInstructions_not_alive (self : MarkAndSweepDCE) (id : InstId)
    (h : id ∈ self.deadInstructions) : id ∉ self.aliveInstructions := by
  obtain ⟨i, _, hi⟩ := mem_deadInstructions.mp h
  obtain ⟨rfl, h2⟩ := sweepVisit_dead self i id hi
  exact h2

/-- An instruction of the live set is still in its block after `sweep`. -/
theorem sweep_keeps_alive (self : MarkAndSweepDCE) (basicBlock : BasicBlock)
    (i : Instruction) (hb : basicBlock ∈ self.function.blocks)
    (hi : i ∈ basicBlock.instructions) (ha : i.id ∈ self.aliveInstructions) :
    self.sweep.1.Contains basicBlock.id i := by
  refine ⟨self.sweepBlock basicBlock, ?_, rfl, ?_⟩
  · rw [sweep_blocks]; exact List.mem_map_of_mem _ hb
  · simp only [MarkAndSweepDCE.sweepBlock, List.mem_filter, List.mem_flatMap,
      decide_eq_true_eq]
    refine ⟨⟨i, hi, ?_⟩, fun hd => deadInstructions_not_alive self _ hd ha⟩
    rw [sweepVisit_alive self i ha]; exact List.mem_singleton_self i

/-! ## The work list loop ends, and the live set is closed -/

theorem Function.getInstruction_mem {function : Function} {id : InstId} {i : Instruction}
    (h : function.getInstruction id = some i) : i ∈ function.instructions ∧ i.id = id := by
  unfold Function.getInstruction at h
  refine ⟨List.mem_of_find?_eq_some h, ?_⟩
  simpa using List.find?_some h

theorem Function.getTerminator_mem {function : Function} {block : BlockId} {t : Instruction}
    (h : function.getTerminator block = some t) : t ∈ function.instructions := by
  unfold Function.getTerminator at h
  cases hb : function.getBlock block with
  | none => simp [hb] at h
  | some basicBlock =>
    simp only [hb] at h
    have hmem : basicBlock ∈ function.blocks := List.mem_of_find?_eq_some hb
    unfold BasicBlock.getTerminator at h
    cases hl : basicBlock.instructions.getLast? with
    | none => simp [hl] at h
    | some last =>
      simp only [hl] at h
      split at h
      · cases h
        obtain ⟨ys, hys⟩ := List.getLast?_eq_some_iff.mp hl
        exact Function.mem_instructions.mpr ⟨basicBlock, hmem, by rw [hys]; simp⟩
      · cases h

theorem Function.UniqueAddresses.eq {function : Function} (h : function.UniqueAddresses)
    {i j : Instruction} (hi : i ∈ function.instructions) (hj : j ∈ function.instructions)
    (hid : i.id = j.id) : i = j :=
  List.inj_on_of_nodup_map h hi hj hid

theorem find_of_nodup (l : List Instruction) (h : (l.map Instruction.id).Nodup)
    (j : Instruction) (hj : j ∈ l) : l.find? (fun i => i.id == j.id) = some j := by
  induction l with
  | nil => cases hj
  | cons x l ih =>
    rw [List.map_cons, List.nodup_cons] at h
    rcases List.mem_cons.mp hj with rfl | hj
    · simp
    · have hne : x.id ≠ j.id := fun he => h.1 (he ▸ List.mem_map_of_mem _ hj)
      rw [List.find?_cons_of_neg]
      · exact ih h.2 hj
      · simpa using hne

theorem Function.UniqueAddresses.getInstruction {function : Function}
    (h : function.UniqueAddresses) {j : Instruction} (hj : j ∈ function.instructions) :
    function.getInstruction j.id = some j :=
  find_of_nodup _ h j hj

theorem push_popped (state : MarkAndSweepDCE) (instruction : Instruction)
    (blocks : List BlockId) (k : Nat) (h : state.Popped k)
    (hmem : instruction ∈ state.function.instructions)
    (hnot : instruction.id ∉ state.aliveInstructions) :
    MarkAndSweepDCE.Popped
      { state with
        aliveInstructions := instruction.id :: state.aliveInstructions
        aliveBasicBlocks := blocks
        instructionWorkList := instruction :: state.instructionWorkList } k := by
  obtain ⟨hc, hlen⟩ := h
  refine ⟨⟨?_, ?_, ?_, ?_⟩, ?_⟩
  · exact List.nodup_cons.mpr ⟨hnot, hc.alive_nodup⟩
  · rw [List.map_cons]
    refine List.nodup_cons.mpr ⟨?_, hc.workList_nodup⟩
    intro hin
    obtain ⟨w, hw, hid⟩ := List.mem_map.mp hin
    exact hnot (hid ▸ (hc.workList_mem w hw).2)
  · intro w hw
    rcases List.mem_cons.mp hw with rfl | hw
    · exact ⟨hmem, List.mem_cons_self _ _⟩
    · exact ⟨(hc.workList_mem w hw).1, List.mem_cons_of_mem _ (hc.workList_mem w hw).2⟩
  · intro id hid
    rcases List.mem_cons.mp hid with rfl | hid
    · exact ⟨instruction, hmem, rfl⟩
    · exact hc.alive_mem id hid
  · simp only [List.length_cons]
    omega

theorem markInstruction_popped (state : MarkAndSweepDCE) (instruction : Instruction) (k : Nat)
    (h : state.Popped k) (hmem : instruction ∈ state.function.instructions) :
    (state.markInstruction instruction).Popped k := by
  unfold MarkAndSweepDCE.markInstruction
  split
  · exact h
  · next hnot => exact push_popped state instruction _ k h hmem hnot

theorem markOperands_popped (self : MarkAndSweepDCE) (currentInstruction : Instruction)
    (k : Nat) (h : self.Popped k) : (self.markOperands currentInstruction).Popped k := by
  refine foldl_invariant _ (fun s => s.Popped k) _ ?_ self h
  intro state value _ hs
  unfold MarkAndSweepDCE.markOperand
  cases value with
  | instruction id =>
    dsimp only
    cases hg : state.function.getInstruction id with
    | none => exact hs
    | some operand =>
      exact markInstruction_popped state operand k hs (Function.getInstruction_mem hg).1
  | _ => exact hs

theorem markPhiPredecessors_popped (self : MarkAndSweepDCE) (currentInstruction : Instruction)
    (k : Nat) (h : self.Popped k) : (self.markPhiPredecessors currentInstruction).Popped k := by
  unfold MarkAndSweepDCE.markPhiPredecessors
  split
  · refine foldl_invariant _ (fun s => s.Popped k) _ ?_ self h
    intro state basicBlock _ hs
    unfold MarkAndSweepDCE.markPredecessor
    cases hg : state.function.getTerminator basicBlock with
    | none => exact hs
    | some terminator =>
      dsimp only
      split
      · exact hs
      · next hnot =>
        exact push_popped state terminator _ k hs (Function.getTerminator_mem hg) hnot
  · exact h

theorem markControlDependencies_popped (self : MarkAndSweepDCE)
    (currentInstruction : Instruction) (k : Nat) (h : self.Popped k) :
    (self.markControlDependencies currentInstruction).Popped k := by
  refine foldl_invariant _ (fun s => s.Popped k) _ ?_ self h
  intro state basicBlock _ hs
  unfold MarkAndSweepDCE.markControlDependency
  cases hg : state.function.getTerminator basicBlock with
  | none => exact hs
  | some terminator =>
    exact markInstruction_popped state terminator k hs (Function.getTerminator_mem hg)

theorem markVisit_popped (self : MarkAndSweepDCE) (currentInstruction : Instruction) (k : Nat)
    (h : self.Popped k) : (self.markVisit currentInstruction).Popped k :=
  markControlDependencies_popped _ _ k
    (markPhiPredecessors_popped _ _ k (markOperands_popped _ _ k h))

theorem initializeLiveSet_popped (self : MarkAndSweepDCE) (k : Nat) (h : self.Popped k) :
    self.initializeLiveSet.Popped k := by
  unfold MarkAndSweepDCE.initializeLiveSet
  refine foldl_invariant _ (fun s => s.Popped k ∧ s.function = self.function) _ ?_ self
    ⟨h, rfl⟩ |>.1
  intro state instruction hmem hs
  dsimp only
  split
  · exact ⟨markInstruction_popped state instruction k hs.1 (hs.2 ▸ hmem),
      (markInstruction_pushes state instruction).function_eq.trans hs.2⟩
  · exact hs

theorem new_popped (function : Function) (postDominatorTree : PostDominatorTree) :
    (MarkAndSweepDCE.new function postDominatorTree).Popped 0 :=
  ⟨⟨List.nodup_nil, List.nodup_nil, (fun _ h => by cases h), (fun _ h => by cases h)⟩, rfl⟩

theorem pop_popped (self : MarkAndSweepDCE) (currentInstruction : Instruction)
    (rest : List Instruction) (k : Nat) (h : self.Popped k)
    (hw : self.instructionWorkList = currentInstruction :: rest) :
    MarkAndSweepDCE.Popped { self with instructionWorkList := rest } (k + 1) := by
  obtain ⟨hc, hlen⟩ := h
  have hnd := hc.workList_nodup
  rw [hw, List.map_cons, List.nodup_cons] at hnd
  refine ⟨⟨hc.alive_nodup, hnd.2, (fun w hwm => ?_), hc.alive_mem⟩, ?_⟩
  · exact hc.workList_mem w (hw ▸ List.mem_cons_of_mem _ hwm)
  · rw [hw] at hlen
    simp only [List.length_cons] at hlen
    show self.aliveInstructions.length = rest.length + (k + 1)
    omega

theorem Consistent.length_le {state : MarkAndSweepDCE} (h : state.Consistent) :
    state.aliveInstructions.length ≤ state.function.instructions.length := by
  have hsub : state.aliveInstructions ⊆ state.function.instructions.map Instruction.id := by
    intro id hid
    obtain ⟨i, hi, rfl⟩ := h.alive_mem id hid
    exact List.mem_map_of_mem _ hi
  have := (List.subperm_of_subset h.alive_nodup hsub).length_le
  simpa using this

/-- With enough fuel the loop of `mark ( )` stops because the work list is empty. -/
theorem markLoop_workList_empty (fuel : Nat) (self : MarkAndSweepDCE) (k : Nat)
    (h : self.Popped k) (hfuel : self.function.instructions.length ≤ k + fuel) :
    (self.markLoop fuel).instructionWorkList = [] ∧ (self.markLoop fuel).Consistent := by
  induction fuel generalizing self k with
  | zero =>
    have hle := Consistent.length_le h.1
    have hlen := h.2
    refine ⟨List.eq_nil_of_length_eq_zero ?_, h.1⟩
    show self.instructionWorkList.length = 0
    omega
  | succ fuel ih =>
    unfold MarkAndSweepDCE.markLoop
    split
    · next hw => exact ⟨hw, h.1⟩
    · next currentInstruction rest hw =>
      have hp := markVisit_popped _ currentInstruction (k + 1)
        (pop_popped self currentInstruction rest k h hw)
      refine ih _ (k + 1) hp ?_
      rw [(markVisit_pushes _ currentInstruction).function_eq]
      show self.function.instructions.length ≤ k + 1 + fuel
      omega

/-- The work list is empty when `mark ( )` returns. -/
theorem mark_workList_empty (function : Function) (postDominatorTree : PostDominatorTree) :
    (MarkAndSweepDCE.marked function postDominatorTree).instructionWorkList = [] := by
  have h := initializeLiveSet_popped _ 0 (new_popped function postDominatorTree)
  refine (markLoop_workList_empty _ _ 0 h ?_).1
  simp

theorem closed_of_pushes {s t : MarkAndSweepDCE} (pending : List Instruction)
    (huniq : s.function.UniqueAddresses) (ht : t.Consistent) (hp : s.Pushes t)
    (hc : s.Closed pending) : t.Closed pending := by
  intro i hi ha
  rw [hp.function_eq] at hi
  rcases hp.alive_new i.id ha with h | ⟨w, hw, hid⟩
  · rcases hc i hi h with h1 | h1 | h1
    · exact Or.inl h1
    · exact Or.inr (Or.inl (hp.workList_subset h1))
    · refine Or.inr (Or.inr fun j hj => ?_)
      rw [hp.function_eq, hp.tree_eq] at hj
      exact hp.alive_subset (h1 j hj)
  · have hwm := (ht.workList_mem w hw).1
    rw [hp.function_eq] at hwm
    have hwi : w = i := huniq.eq hwm hi hid
    exact Or.inr (Or.inl (hwi ▸ hw))

theorem markOperands_achieves (self : MarkAndSweepDCE) (currentInstruction : Instruction)
    (id : InstId) (operand : Instruction)
    (hop : Value.instruction id ∈ currentInstruction.operands)
    (hget : self.function.getInstruction id = some operand) :
    operand.id ∈ (self.markOperands currentInstruction).aliveInstructions := by
  have h := foldl_achieves MarkAndSweepDCE.markOperand
    (fun value state => ∀ id operand, value = Value.instruction id →
      state.function.getInstruction id = some operand → operand.id ∈ state.aliveInstructions)
    markOperand_pushes ?_ ?_ currentInstruction.operands self _ hop id operand rfl
  · apply h
    rw [(foldl_pushes _ markOperand_pushes currentInstruction.operands self).function_eq]
    exact hget
  · intro a s t hst hq id operand ha hg
    rw [hst.function_eq] at hg
    exact hst.alive_subset (hq id operand ha hg)
  · intro state a id operand ha hg
    rw [(markOperand_pushes state a).function_eq] at hg
    subst ha
    simp only [MarkAndSweepDCE.markOperand, hg]
    exact markInstruction_alive state operand

theorem markPhiPredecessors_achieves (self : MarkAndSweepDCE)
    (currentInstruction : Instruction) (hphi : currentInstruction.opcode = Opcode.phi)
    (p : BlockId) (terminator : Instruction)
    (hp : p ∈ self.function.predecessors currentInstruction.parent)
    (hget : self.function.getTerminator p = some terminator) :
    terminator.id ∈ (self.markPhiPredecessors currentInstruction).aliveInstructions := by
  have hpush := markPhiPredecessors_pushes self currentInstruction
  unfold MarkAndSweepDCE.markPhiPredecessors at hpush ⊢
  rw [if_pos hphi] at hpush ⊢
  have h := foldl_achieves MarkAndSweepDCE.markPredecessor
    (fun block state => ∀ terminator,
      state.function.getTerminator block = some terminator →
        terminator.id ∈ state.aliveInstructions)
    markPredecessor_pushes ?_ ?_ _ self p hp terminator
  · apply h
    rw [hpush.function_eq]
    exact hget
  · intro a s t hst hq terminator hg
    rw [hst.function_eq] at hg
    exact hst.alive_subset (hq terminator hg)
  · intro state a terminator hg
    rw [(markPredecessor_pushes state a).function_eq] at hg
    simp only [MarkAndSweepDCE.markPredecessor, hg]
    split
    · assumption
    · exact List.mem_cons_self _ _

theorem markControlDependencies_achieves (self : MarkAndSweepDCE)
    (currentInstruction : Instruction) (b : BlockId) (terminator : Instruction)
    (hb : b ∈ self.postDominatorTree.reverseIDF currentInstruction.parent)
    (hget : self.function.getTerminator b = some terminator) :
    terminator.id ∈ (self.markControlDependencies currentInstruction).aliveInstructions := by
  have h := foldl_achieves MarkAndSweepDCE.markControlDependency
    (fun block state => ∀ terminator,
      state.function.getTerminator block = some terminator →
        terminator.id ∈ state.aliveInstructions)
    markControlDependency_pushes ?_ ?_ _ self b hb terminator
  · apply h
    rw [(foldl_pushes _ markControlDependency_pushes _ self).function_eq]
    exact hget
  · intro a s t hst hq terminator hg
    rw [hst.function_eq] at hg
    exact hst.alive_subset (hq terminator hg)
  · intro state a terminator hg
    rw [(markControlDependency_pushes state a).function_eq] at hg
    simp only [MarkAndSweepDCE.markControlDependency, hg]
    exact markInstruction_alive state terminator

/-- After the loop body has run for `currentInstruction`, everything it requires is in the
live set. -/
theorem markVisit_achieves (self : MarkAndSweepDCE) (currentInstruction : Instruction)
    (huniq : self.function.UniqueAddresses) (j : Instruction)
    (hreq : Requires self.function self.postDominatorTree currentInstruction j) :
    j.id ∈ (self.markVisit currentInstruction).aliveInstructions := by
  have h1 := markOperands_pushes self currentInstruction
  have h2 := markPhiPredecessors_pushes (self.markOperands currentInstruction)
    currentInstruction
  have h3 := markControlDependencies_pushes
    ((self.markOperands currentInstruction).markPhiPredecessors currentInstruction)
    currentInstruction
  rcases hreq with ⟨hj, hop⟩ | ⟨hphi, p, hp, hget⟩ | ⟨b, hb, hget⟩
  · exact h3.alive_subset (h2.alive_subset
      (markOperands_achieves self currentInstruction j.id j hop (huniq.getInstruction hj)))
  · refine h3.alive_subset
      (markPhiPredecessors_achieves _ currentInstruction hphi p j ?_ ?_)
    · rw [h1.function_eq]; exact hp
    · rw [h1.function_eq]; exact hget
  · refine markControlDependencies_achieves _ currentInstruction b j ?_ ?_
    · rw [h2.tree_eq, h1.tree_eq]; exact hb
    · rw [h2.function_eq, h1.function_eq]; exact hget

/-- The loop body for `currentInstruction` settles what was pending for it. -/
theorem markVisit_closed (popped : MarkAndSweepDCE) (currentInstruction : Instruction) (k : Nat)
    (huniq : popped.function.UniqueAddresses) (hp : popped.Popped k)
    (hc : popped.Closed [currentInstruction]) :
    (popped.markVisit currentInstruction).Closed [] := by
  have hpush := markVisit_pushes popped currentInstruction
  have hc2 := closed_of_pushes [currentInstruction] huniq
    (markVisit_popped popped currentInstruction k hp).1 hpush hc
  intro i hi ha
  rcases hc2 i hi ha with h1 | h1 | h1
  · rw [List.mem_singleton] at h1
    subst h1
    refine Or.inr (Or.inr fun j hj => ?_)
    rw [hpush.function_eq, hpush.tree_eq] at hj
    exact markVisit_achieves popped i huniq j hj
  · exact Or.inr (Or.inl h1)
  · exact Or.inr (Or.inr h1)

/-- The loop of `mark ( )` keeps the live set closed up to the work list. -/
theorem markLoop_closed (fuel : Nat) (self : MarkAndSweepDCE) (k : Nat)
    (huniq : self.function.UniqueAddresses) (h : self.Popped k) (hc : self.Closed []) :
    (self.markLoop fuel).Closed [] := by
  induction fuel generalizing self k with
  | zero => exact hc
  | succ fuel ih =>
    unfold MarkAndSweepDCE.markLoop
    split
    · exact hc
    · next currentInstruction rest hw =>
      have hpop := pop_popped self currentInstruction rest k h hw
      have hp := markVisit_popped _ currentInstruction (k + 1) hpop
      have hpush := markVisit_pushes { self with instructionWorkList := rest }
        currentInstruction
      have huniq2 : (MarkAndSweepDCE.markVisit { self with instructionWorkList := rest }
          currentInstruction).function.UniqueAddresses := by
        rw [hpush.function_eq]; exact huniq
      refine ih _ (k + 1) huniq2 hp ?_
      have hc1 : MarkAndSweepDCE.Closed { self with instructionWorkList := rest }
          [currentInstruction] := by
        intro i hi ha
        rcases hc i hi ha with h1 | h1 | h1
        · cases h1
        · rw [hw] at h1
          rcases List.mem_cons.mp h1 with rfl | h1
          · exact Or.inl (List.mem_singleton_self _)
          · exact Or.inr (Or.inl h1)
        · exact Or.inr (Or.inr h1)
      exact markVisit_closed _ currentInstruction (k + 1) huniq hpop hc1

/-- When `sweep` starts, every instruction required by a live instruction of the function is
in the live set. -/
theorem marked_closed (function : Function) (postDominatorTree : PostDominatorTree)
    (huniq : function.UniqueAddresses) (i j : Instruction)
    (hi : i ∈ function.instructions)
    (ha : i.id ∈ (MarkAndSweepDCE.marked function postDominatorTree).aliveInstructions)
    (hreq : Requires function postDominatorTree i j) :
    j.id ∈ (MarkAndSweepDCE.marked function postDominatorTree).aliveInstructions := by
  have hinit := initializeLiveSet_popped _ 0 (new_popped function postDominatorTree)
  have hpush := initializeLiveSet_pushes (MarkAndSweepDCE.new function postDominatorTree)
  have hc0 : (MarkAndSweepDCE.new function postDominatorTree).Closed [] := by
    intro i _ ha
    exact absurd ha (List.not_mem_nil _)
  have huniq0 : (MarkAndSweepDCE.new function postDominatorTree).function.UniqueAddresses :=
    huniq
  have hc1 : (MarkAndSweepDCE.new function postDominatorTree).initializeLiveSet.Closed [] :=
    closed_of_pushes [] huniq0 hinit.1 hpush hc0
  have hfun : (MarkAndSweepDCE.new function postDominatorTree).initializeLiveSet.function
      = function := hpush.function_eq
  have huniq1 : (MarkAndSweepDCE.new function
      postDominatorTree).initializeLiveSet.function.UniqueAddresses := by
    rw [hfun]; exact huniq
  have hc3 : (MarkAndSweepDCE.marked function postDominatorTree).Closed [] :=
    markLoop_closed _ _ 0 huniq1 hinit hc1
  have hmf := marked_function function postDominatorTree
  have hmt := marked_tree function postDominatorTree
  have hi2 : i ∈ (MarkAndSweepDCE.marked function postDominatorTree).function.instructions := by
    rw [hmf]; exact hi
  rcases hc3 i hi2 ha with h1 | h1 | h1
  · exact absurd h1 (List.not_mem_nil _)
  · rw [mark_workList_empty] at h1; exact absurd h1 (List.not_mem_nil _)
  · apply h1 j
    rw [hmf, hmt]
    exact hreq

/-! ## The sweep on a function with distinct addresses -/

theorem Function.id_lt_addressLimit {function : Function} {i : Instruction}
    (h : i ∈ function.instructions) : i.id < function.addressLimit := by
  unfold Function.addressLimit
  have key : ∀ (l : List Nat) (n : Nat), n ∈ l → n ≤ l.foldr max 0 := by
    intro l
    induction l with
    | nil => intro n hn; cases hn
    | cons x l ih =>
      intro n hn
      rw [List.foldr_cons]
      rcases List.mem_cons.mp hn with rfl | hn
      · exact le_max_left _ _
      · exact le_trans (ih n hn) (le_max_right _ _)
  exact Nat.lt_succ_of_le (key _ _ (List.mem_map_of_mem _ h))

theorem deadInstructions_lt (self : MarkAndSweepDCE) (id : InstId)
    (h : id ∈ self.deadInstructions) : id < self.function.addressLimit := by
  obtain ⟨i, hi, hid⟩ := mem_deadInstructions.mp h
  obtain ⟨rfl, _⟩ := sweepVisit_dead self i id hid
  exact Function.id_lt_addressLimit hi

/-- What remains at the place of an instruction: itself, nothing, or the new branch. -/
theorem sweepResult_cases (self : MarkAndSweepDCE) (i : Instruction) :
    (self.sweepVisit i = ([i], []) ∧ self.sweepResult i = [i]) ∨
    (self.sweepVisit i = ([i.dropAllReferences], [i.id]) ∧ self.sweepResult i = [] ∧
        i.id ∉ self.aliveInstructions ∧ i.isTerminator = false) ∨
    (∃ block, self.sweepVisit i =
          ([BranchInst.Create self.function block i, i.dropAllReferences], [i.id]) ∧
        self.sweepResult i = [BranchInst.Create self.function block i] ∧
        i.id ∉ self.aliveInstructions ∧ i.isTerminator = true ∧ i.opcode = Opcode.br ∧
        i.isUnconditional = false ∧
        DomTreeNode.findAlive self.aliveBasicBlocks
          (self.postDominatorTree.getIDom i.parent) = some block) := by
  rcases sweepVisit_cases self i with ⟨h1, _⟩ | ⟨h1, h2, h3⟩ | ⟨block, h1, h2, h3, h4, h5, h6⟩
  · left
    refine ⟨h1, ?_⟩
    simp [MarkAndSweepDCE.sweepResult, h1]
  · right; left
    refine ⟨h1, ?_, h2, h3⟩
    simp [MarkAndSweepDCE.sweepResult, h1, Instruction.dropAllReferences]
  · right; right
    refine ⟨block, h1, ?_, h2, h3, h4, h5, h6⟩
    have hpos : 0 < self.function.addressLimit := Nat.succ_pos _
    have hne : self.function.addressLimit + i.id ≠ i.id := by omega
    simp [MarkAndSweepDCE.sweepResult, h1, Instruction.dropAllReferences, BranchInst.Create,
      hne]

/-- With distinct addresses the second loop removes, of what stands at the place of an
instruction, exactly what that instruction pushed on `deadInstructions`. -/
theorem sweepBlock_instructions (self : MarkAndSweepDCE)
    (huniq : self.function.UniqueAddresses) (basicBlock : BasicBlock)
    (hb : basicBlock ∈ self.function.blocks) :
    (self.sweepBlock basicBlock).instructions =
      basicBlock.instructions.flatMap self.sweepResult := by
  unfold MarkAndSweepDCE.sweepBlock
  simp only
  rw [List.filter_flatMap]
  apply List.flatMap_congr
  intro i hi
  unfold MarkAndSweepDCE.sweepResult
  apply List.filter_congr
  intro x hx
  have him : i ∈ self.function.instructions := Function.mem_instructions.mpr ⟨_, hb, hi⟩
  have hiff : x.id ∈ self.deadInstructions ↔ x.id ∈ (self.sweepVisit i).2 := by
    constructor
    · intro hd
      obtain ⟨j, hj, hjd⟩ := mem_deadInstructions.mp hd
      obtain ⟨hxj, _⟩ := sweepVisit_dead self j x.id hjd
      rcases sweepVisit_cases self i with ⟨h1, _⟩ | ⟨h1, _⟩ | ⟨block, h1, _⟩
      · rw [h1] at hx
        have hxi : x = i := List.mem_singleton.mp hx
        have hij : i = j := huniq.eq him hj (hxi ▸ hxj)
        rw [hij]; exact hxj ▸ hjd
      · rw [h1]; rw [h1] at hx
        have hxi : x = i.dropAllReferences := List.mem_singleton.mp hx
        simp [hxi, Instruction.dropAllReferences]
      · rw [h1]; rw [h1] at hx
        simp only [List.mem_cons, List.mem_singleton, List.not_mem_nil, or_false] at hx
        rcases hx with hxi | hxi
        · have hlt : x.id < self.function.addressLimit :=
            hxj ▸ Function.id_lt_addressLimit hj
          have hnew : (BranchInst.Create self.function block i).id =
              self.function.addressLimit + i.id := rfl
          rw [hxi, hnew] at hlt
          have hlt2 : self.function.addressLimit + i.id < self.function.addressLimit := hlt
          exfalso
          omega
        · simp [hxi, Instruction.dropAllReferences]
    · intro hd
      exact mem_deadInstructions.mpr ⟨i, him, hd⟩
  by_cases hd : x.id ∈ self.deadInstructions
  · simp [hd, hiff.mp hd]
  · have hd2 := mt hiff.mpr hd
    simp [hd, hd2]

theorem BasicBlock.endsInOneTerminator_iff (basicBlock : BasicBlock) :
    basicBlock.endsInOneTerminator = true ↔
      ∃ before last, basicBlock.instructions = before ++ [last] ∧ last.isTerminator = true ∧
        ∀ i ∈ before, i.isTerminator = false := by
  unfold BasicBlock.endsInOneTerminator
  constructor
  · intro h
    cases hr : basicBlock.instructions.reverse with
    | nil => simp [hr] at h
    | cons last before =>
      simp only [hr, Bool.and_eq_true, List.all_eq_true, Bool.not_eq_true'] at h
      refine ⟨before.reverse, last, ?_, h.1, fun i hi => h.2 i (List.mem_reverse.mp hi)⟩
      have := congrArg List.reverse hr
      simpa using this
  · rintro ⟨before, last, heq, hl, hb⟩
    simp only [heq, List.reverse_append, List.reverse_singleton, List.singleton_append,
      Bool.and_eq_true, List.all_eq_true, Bool.not_eq_true']
    exact ⟨hl, fun i hi => hb i (List.mem_reverse.mp hi)⟩

theorem BasicBlock.getTerminator_eq_some {basicBlock : BasicBlock} {t : Instruction} :
    basicBlock.getTerminator = some t ↔
      (∃ before, basicBlock.instructions = before ++ [t]) ∧ t.isTerminator = true := by
  unfold BasicBlock.getTerminator
  cases hl : basicBlock.instructions.getLast? with
  | none =>
    constructor
    · intro h; cases h
    · rintro ⟨⟨before, hb⟩, _⟩
      rw [hb] at hl
      simp at hl
  | some last =>
    have hlast := List.getLast?_eq_some_iff.mp hl
    simp only
    constructor
    · intro h
      split at h
      · next ht => cases h; exact ⟨hlast, ht⟩
      · cases h
    · rintro ⟨⟨before, hb⟩, ht⟩
      rw [hb, List.getLast?_concat] at hl
      cases hl
      simp [ht]

/-- The instructions before the terminator that survive the sweep are the live ones. -/
theorem sweepResult_nonTerminators (self : MarkAndSweepDCE) (before : List Instruction)
    (h : ∀ i ∈ before, i.isTerminator = false) :
    before.flatMap self.sweepResult =
      before.filter (fun i => decide (i.id ∈ self.aliveInstructions)) := by
  induction before with
  | nil => rfl
  | cons x before ih =>
    rw [List.flatMap_cons, ih (fun i hi => h i (List.mem_cons_of_mem _ hi))]
    have hx := h x (List.mem_cons_self _ _)
    rcases sweepVisit_cases self x with ⟨_, h2⟩ | ⟨_, h2, _⟩ | ⟨block, _, _, h3, _⟩
    · rcases h2 with h2 | ⟨h2, _⟩
      · rcases sweepResult_cases self x with ⟨_, h4⟩ | ⟨_, _, h4, _⟩ | ⟨_, _, _, h4, _⟩
        · simp [h4, h2]
        · exact absurd h2 h4
        · exact absurd h2 h4
      · rw [hx] at h2; cases h2
    · rcases sweepResult_cases self x with ⟨h4, _⟩ | ⟨_, h4, _⟩ | ⟨_, _, _, _, h4, _⟩
      · rcases sweepVisit_cases self x with ⟨_, h5⟩ | ⟨h5, _⟩ | ⟨_, h5, _⟩
        · rcases h5 with h5 | ⟨h5, _⟩
          · exact absurd h5 h2
          · rw [hx] at h5; cases h5
        · rw [h4] at h5; simp at h5
        · rw [h4] at h5; simp at h5
      · simp [h4, h2]
      · rw [hx] at h4; cases h4
    · rw [hx] at h3; cases h3

/-! ## The claims -/

theorem isLive_ret (i : Instruction) (h : i.opcode = Opcode.ret) :
    MarkAndSweepDCE.isLive i = true := by
  simp [MarkAndSweepDCE.isLive, h]

theorem isLive_store (i : Instruction) (h : i.opcode = Opcode.store) :
    MarkAndSweepDCE.isLive i =
      (i.operands.any Value.isGlobalVariable ||
        i.operands.any Value.isArgumentPassedByPointer) := by
  simp [MarkAndSweepDCE.isLive, h, Instruction.mayHaveSideEffects,
    Instruction.mayWriteToMemory]

/-- An instruction for which `isLive` holds is in its block after `apply`. -/
theorem apply_keeps_seed (function : Function) (postDominatorTree : PostDominatorTree)
    (basicBlock : BasicBlock) (i : Instruction) (hb : basicBlock ∈ function.blocks)
    (hi : i ∈ basicBlock.instructions) (hlive : MarkAndSweepDCE.isLive i = true) :
    i.id ∈ (MarkAndSweepDCE.new function postDominatorTree).initializeLiveSet.aliveInstructions ∧
      i.id ∈ (MarkAndSweepDCE.marked function postDominatorTree).aliveInstructions ∧
      i.id ∉ (MarkAndSweepDCE.marked function postDominatorTree).deadInstructions ∧
      ((MarkAndSweepDCE.new function postDominatorTree).apply).1.Contains basicBlock.id i := by
  have hmem : i ∈ function.instructions := Function.mem_instructions.mpr ⟨_, hb, hi⟩
  have hseed := initializeLiveSet_seeds (MarkAndSweepDCE.new function postDominatorTree) i
    hmem hlive
  have halive := marked_seeds function postDominatorTree i hmem hlive
  refine ⟨hseed, halive, fun hd => deadInstructions_not_alive _ _ hd halive, ?_⟩
  rw [apply_eq]
  refine sweep_keeps_alive _ basicBlock i ?_ hi halive
  rw [marked_function]; exact hb

/-- C2 (return preservation).  For every function and post-dominator tree, a return
instruction of a block of the function is intrinsically live (`isLive` is true), is put in
`aliveInstructions` by `initialize`, is not pushed on `deadInstructions` by `sweep`, and is
still in its block after `apply ( )`. -/
theorem apply_preserves_return (function : Function) (postDominatorTree : PostDominatorTree)
    (basicBlock : BasicBlock) (i : Instruction) (hb : basicBlock ∈ function.blocks)
    (hi : i ∈ basicBlock.instructions) (hret : i.opcode = Opcode.ret) :
    MarkAndSweepDCE.isLive i = true ∧
      i.id ∈
        (MarkAndSweepDCE.new function postDominatorTree).initializeLiveSet.aliveInstructions ∧
      i.id ∉ (MarkAndSweepDCE.marked function postDominatorTree).deadInstructions ∧
      ((MarkAndSweepDCE.new function postDominatorTree).apply).1.Contains basicBlock.id i := by
  have hlive := isLive_ret i hret
  obtain ⟨h1, _, h3, h4⟩ := apply_keeps_seed function postDominatorTree basicBlock i hb hi hlive
  exact ⟨hlive, h1, h3, h4⟩

/-- Witness of C2: the return of block 3 of `diamond`. -/
theorem apply_preserves_return_witness :
    MarkAndSweepDCE.isLive (Example.instruction 5 3 Opcode.ret []) = true ∧
      (5 : InstId) ∈ (MarkAndSweepDCE.new Example.diamond
        Example.diamondTree).initializeLiveSet.aliveInstructions ∧
      (5 : InstId) ∉
        (MarkAndSweepDCE.marked Example.diamond Example.diamondTree).deadInstructions ∧
      ((MarkAndSweepDCE.new Example.diamond Example.diamondTree).apply).1.Contains 3
        (Example.instruction 5 3 Opcode.ret []) :=
  apply_preserves_return Example.diamond Example.diamondTree
    { id := 3, instructions := [Example.instruction 5 3 Opcode.ret []] }
    (Example.instruction 5 3 Opcode.ret []) (by decide) (by decide) rfl

/-- C3 (escaping-store preservation).  For every function and post-dominator tree, a store of
a block of the function whose address operand is a global variable or a function argument of
pointer type is intrinsically live and is still in its block after `apply ( )`; nothing is
assumed about the uses of the store. -/
theorem apply_preserves_escaping_store (function : Function)
    (postDominatorTree : PostDominatorTree) (basicBlock : BasicBlock) (i : Instruction)
    (address : Value) (hb : basicBlock ∈ function.blocks) (hi : i ∈ basicBlock.instructions)
    (hstore : i.opcode = Opcode.store) (haddress : i.getPointerOperand = some address)
    (hescapes : address.isGlobalVariable = true ∨ address.isArgumentPassedByPointer = true) :
    MarkAndSweepDCE.isLive i = true ∧
      i.id ∉ (MarkAndSweepDCE.marked function postDominatorTree).deadInstructions ∧
      ((MarkAndSweepDCE.new function postDominatorTree).apply).1.Contains basicBlock.id i := by
  have hmem : address ∈ i.operands := by
    unfold Instruction.getPointerOperand at haddress
    exact List.getElem?_mem haddress
  have hlive : MarkAndSweepDCE.isLive i = true := by
    rw [isLive_store i hstore, Bool.or_eq_true, List.any_eq_true, List.any_eq_true]
    rcases hescapes with h | h
    · exact Or.inl ⟨address, hmem, h⟩
    · exact Or.inr ⟨address, hmem, h⟩
  obtain ⟨_, _, h3, h4⟩ := apply_keeps_seed function postDominatorTree basicBlock i hb hi hlive
  exact ⟨hlive, h3, h4⟩

/-- Witness of C3: the store to a global variable in `globalStore`. -/
theorem apply_preserves_escaping_store_witness :
    MarkAndSweepDCE.isLive
        (Example.instruction 1 0 Opcode.store [Value.constant 7, Value.globalVariable 0]) =
        true ∧
      (1 : InstId) ∉
        (MarkAndSweepDCE.marked Example.globalStore Example.singleBlockTree).deadInstructions ∧
      ((MarkAndSweepDCE.new Example.globalStore Example.singleBlockTree).apply).1.Contains 0
        (Example.instruction 1 0 Opcode.store [Value.constant 7, Value.globalVariable 0]) :=
  apply_preserves_escaping_store Example.globalStore Example.singleBlockTree
    { id := 0
      instructions :=
        [ Example.instruction 1 0 Opcode.store [Value.constant 7, Value.globalVariable 0],
          Example.instruction 2 0 Opcode.ret [] ] }
    (Example.instruction 1 0 Opcode.store [Value.constant 7, Value.globalVariable 0])
    (Value.globalVariable 0) (by decide) (by decide) rfl rfl (Or.inl rfl)

theorem Requires.mem {function : Function} {postDominatorTree : PostDominatorTree}
    {i j : Instruction} (h : Requires function postDominatorTree i j) :
    j ∈ function.instructions := by
  rcases h with ⟨hj, _⟩ | ⟨_, p, _, hget⟩ | ⟨b, _, hget⟩
  · exact hj
  · exact Function.getTerminator_mem hget
  · exact Function.getTerminator_mem hget

/-- C1 (soundness).  For every well-formed function and every post-dominator tree: an
instruction of a block of the function that is in the final live set is still in that block
after `apply ( )`; and every instruction reached from a live instruction by following
`Requires` any number of times (an instruction operand; for a phi, the terminator of a
predecessor of its parent block; the terminator of a control dependency of the parent block)
is in the final live set, is not pushed on `deadInstructions`, and is still in its block
after `apply ( )`. -/
theorem apply_soundness (function : Function) (postDominatorTree : PostDominatorTree)
    (hwf : function.WellFormed) :
    (∀ basicBlock ∈ function.blocks, ∀ i ∈ basicBlock.instructions,
        i.id ∈ (MarkAndSweepDCE.marked function postDominatorTree).aliveInstructions →
          ((MarkAndSweepDCE.new function postDominatorTree).apply).1.Contains
            basicBlock.id i) ∧
      (∀ i ∈ function.instructions,
        i.id ∈ (MarkAndSweepDCE.marked function postDominatorTree).aliveInstructions →
          ∀ j, Relation.ReflTransGen (Requires function postDominatorTree) i j →
            j.id ∈ (MarkAndSweepDCE.marked function postDominatorTree).aliveInstructions ∧
              j.id ∉ (MarkAndSweepDCE.marked function postDominatorTree).deadInstructions ∧
              ((MarkAndSweepDCE.new function postDominatorTree).apply).1.Contains
                j.parent j) := by
  have hkeep : ∀ basicBlock ∈ function.blocks, ∀ i ∈ basicBlock.instructions,
      i.id ∈ (MarkAndSweepDCE.marked function postDominatorTree).aliveInstructions →
        ((MarkAndSweepDCE.new function postDominatorTree).apply).1.Contains
          basicBlock.id i := by
    intro basicBlock hb i hi ha
    rw [apply_eq]
    refine sweep_keeps_alive _ basicBlock i ?_ hi ha
    rw [marked_function]; exact hb
  refine ⟨hkeep, ?_⟩
  intro i hi ha j hreach
  have key : j ∈ function.instructions ∧
      j.id ∈ (MarkAndSweepDCE.marked function postDominatorTree).aliveInstructions := by
    induction hreach with
    | refl => exact ⟨hi, ha⟩
    | tail _ hstep ih =>
      exact ⟨hstep.mem, marked_closed function postDominatorTree hwf.1 _ _ ih.1 ih.2 hstep⟩
  refine ⟨key.2, fun hd => deadInstructions_not_alive _ _ hd key.2, ?_⟩
  obtain ⟨basicBlock, hb, hjb⟩ := Function.mem_instructions.mp key.1
  rw [hwf.2.2.1 basicBlock hb j hjb]
  exact hkeep basicBlock hb j hjb key.2

/-- Witness of C1: the function `merge`, whose return uses a phi. -/
theorem apply_soundness_witness :
    Example.merge.WellFormed ∧
      ((∀ basicBlock ∈ Example.merge.blocks, ∀ i ∈ basicBlock.instructions,
        i.id ∈ (MarkAndSweepDCE.marked Example.merge Example.diamondTree).aliveInstructions →
          ((MarkAndSweepDCE.new Example.merge Example.diamondTree).apply).1.Contains
            basicBlock.id i) ∧
      (∀ i ∈ Example.merge.instructions,
        i.id ∈ (MarkAndSweepDCE.marked Example.merge Example.diamondTree).aliveInstructions →
          ∀ j, Relation.ReflTransGen (Requires Example.merge Example.diamondTree) i j →
            j.id ∈ (MarkAndSweepDCE.marked Example.merge
              Example.diamondTree).aliveInstructions ∧
              j.id ∉ (MarkAndSweepDCE.marked Example.merge
                Example.diamondTree).deadInstructions ∧
              ((MarkAndSweepDCE.new Example.merge Example.diamondTree).apply).1.Contains
                j.parent j)) :=
  ⟨by decide, apply_soundness Example.merge Example.diamondTree (by decide)⟩

/-! ## Blocks after the sweep -/

theorem DomTreeNode.findAlive_eq_none {aliveBasicBlocks : List BlockId} {node : DomTreeNode} :
    DomTreeNode.findAlive aliveBasicBlocks node = none ↔
      ∀ block ∈ node.chain, block ∉ aliveBasicBlocks := by
  induction node with
  | nullptr => simp [DomTreeNode.findAlive, DomTreeNode.chain]
  | node getBlock getIDom ih =>
    cases getBlock with
    | none => simpa [DomTreeNode.findAlive, DomTreeNode.chain] using ih
    | some block =>
      by_cases hb : block ∈ aliveBasicBlocks
      · simp [DomTreeNode.findAlive, DomTreeNode.chain, hb]
      · simp [DomTreeNode.findAlive, DomTreeNode.chain, hb, ih]

theorem DomTreeNode.findAlive_eq_some {aliveBasicBlocks : List BlockId} {node : DomTreeNode}
    {target : BlockId} (h : DomTreeNode.findAlive aliveBasicBlocks node = some target) :
    ∃ nearer further, node.chain = nearer ++ target :: further ∧
      target ∈ aliveBasicBlocks ∧ ∀ block ∈ nearer, block ∉ aliveBasicBlocks := by
  induction node with
  | nullptr => simp [DomTreeNode.findAlive] at h
  | node getBlock getIDom ih =>
    cases getBlock with
    | none =>
      simp only [DomTreeNode.findAlive] at h
      simpa [DomTreeNode.chain] using ih h
    | some block =>
      simp only [DomTreeNode.findAlive] at h
      by_cases hb : block ∈ aliveBasicBlocks
      · rw [if_pos hb] at h
        cases h
        exact ⟨[], getIDom.chain, rfl, hb, fun _ hx => absurd hx (List.not_mem_nil _)⟩
      · rw [if_neg hb] at h
        obtain ⟨nearer, further, hc, ht, hn⟩ := ih h
        refine ⟨block :: nearer, further, ?_, ht, ?_⟩
        · simp [DomTreeNode.chain, hc]
        · intro x hx
          rcases List.mem_cons.mp hx with rfl | hx
          · exact hb
          · exact hn x hx

theorem sweep_mem_instructions {self : MarkAndSweepDCE} {x : Instruction} :
    x ∈ self.sweep.1.instructions ↔
      ∃ basicBlock ∈ self.function.blocks, x ∈ (self.sweepBlock basicBlock).instructions := by
  rw [Function.mem_instructions, sweep_blocks]
  constructor
  · rintro ⟨after, ha, hx⟩
    obtain ⟨basicBlock, hb, rfl⟩ := List.mem_map.mp ha
    exact ⟨basicBlock, hb, hx⟩
  · rintro ⟨basicBlock, hb, hx⟩
    exact ⟨_, List.mem_map_of_mem _ hb, hx⟩

theorem sweepBlock_mem (self : MarkAndSweepDCE) (basicBlock : BasicBlock)
    (hb : basicBlock ∈ self.function.blocks) :
    self.sweepBlock basicBlock ∈ self.sweep.1.blocks := by
  rw [sweep_blocks]; exact List.mem_map_of_mem _ hb

/-- No instruction left by `sweep` has an address that is on `deadInstructions`. -/
theorem sweep_lacks_dead (self : MarkAndSweepDCE) (id : InstId)
    (h : id ∈ self.deadInstructions) : ∀ x ∈ self.sweep.1.instructions, x.id ≠ id := by
  intro x hx hid
  obtain ⟨basicBlock, _, hxb⟩ := sweep_mem_instructions.mp hx
  simp only [MarkAndSweepDCE.sweepBlock, List.mem_filter, decide_eq_true_eq] at hxb
  exact hxb.2 (hid ▸ h)

theorem sweepVisit_nil (self : MarkAndSweepDCE) (i : Instruction)
    (h : (self.sweepVisit i).2 = []) : self.sweepVisit i = ([i], []) := by
  rcases sweepVisit_cases self i with ⟨h1, _⟩ | ⟨h1, _⟩ | ⟨block, h1, _⟩
  · exact h1
  · rw [h1] at h; cases h
  · rw [h1] at h; cases h

/-- When nothing is pushed on `deadInstructions`, `sweep` leaves the function as it is. -/
theorem sweep_unchanged (self : MarkAndSweepDCE) (h : self.deadInstructions = []) :
    self.sweep.1 = self.function := by
  have hblocks : self.sweep.1.blocks = self.function.blocks := by
    rw [sweep_blocks]
    refine (List.map_congr_left fun basicBlock hb => ?_).trans (List.map_id _)
    have hvisit : ∀ i ∈ basicBlock.instructions, (self.sweepVisit i).1 = [i] := by
      intro i hi
      have hnil : (self.sweepVisit i).2 = [] := by
        apply List.eq_nil_iff_forall_not_mem.mpr
        intro id hid
        have hd : id ∈ self.deadInstructions :=
          mem_deadInstructions.mpr ⟨i, Function.mem_instructions.mpr ⟨_, hb, hi⟩, hid⟩
        rw [h] at hd
        exact absurd hd (List.not_mem_nil _)
      rw [sweepVisit_nil self i hnil]
    have hflat : basicBlock.instructions.flatMap (fun i => (self.sweepVisit i).1) =
        basicBlock.instructions :=
      (List.flatMap_congr hvisit).trans (List.flatMap_singleton' _)
    simp only [MarkAndSweepDCE.sweepBlock, hflat, h, List.not_mem_nil, not_false_eq_true,
      decide_True, List.filter_true, id]
  cases hs : self.sweep.1
  cases hf : self.function
  rw [hs, hf] at hblocks
  simpa using hblocks

theorem sweep_changed_iff_lacks (self : MarkAndSweepDCE) :
    self.sweep.2 = true ↔ ∃ i ∈ self.function.instructions, self.sweep.1.Lacks i := by
  rw [sweep_changed]
  constructor
  · intro hne
    obtain ⟨id, hid⟩ := List.exists_mem_of_ne_nil _ hne
    obtain ⟨i, hi, hd⟩ := mem_deadInstructions.mp hid
    obtain ⟨rfl, _⟩ := sweepVisit_dead self i id hd
    exact ⟨i, hi, sweep_lacks_dead self _ hid⟩
  · rintro ⟨i, hi, hlacks⟩ hnil
    rw [sweep_unchanged self hnil] at hlacks
    exact hlacks i hi rfl

theorem Instruction.isTerminator_of_br {i : Instruction} (h : i.opcode = Opcode.br) :
    i.isTerminator = true := by
  simp [Instruction.isTerminator, h, Opcode.isTerminator]

/-- With distinct addresses, an instruction at which nothing is pushed on `deadInstructions`
is not on `deadInstructions`. -/
theorem not_dead_of_sweepVisit (self : MarkAndSweepDCE)
    (huniq : self.function.UniqueAddresses) (i : Instruction)
    (hi : i ∈ self.function.instructions) (h : self.sweepVisit i = ([i], [])) :
    i.id ∉ self.deadInstructions := by
  intro hd
  obtain ⟨j, hj, hjd⟩ := mem_deadInstructions.mp hd
  obtain ⟨hid, _⟩ := sweepVisit_dead self j i.id hjd
  have hij : i = j := huniq.eq hi hj hid
  rw [← hij, h] at hjd
  exact absurd hjd (List.not_mem_nil _)

/-- The block after the sweep: the live instructions before the terminator, then what
remains at the place of the terminator. -/
theorem sweepBlock_split (self : MarkAndSweepDCE) (huniq : self.function.UniqueAddresses)
    (basicBlock : BasicBlock) (hb : basicBlock ∈ self.function.blocks)
    (before : List Instruction) (t : Instruction)
    (hsplit : basicBlock.instructions = before ++ [t])
    (hbefore : ∀ i ∈ before, i.isTerminator = false) :
    (self.sweepBlock basicBlock).instructions =
      before.filter (fun i => decide (i.id ∈ self.aliveInstructions)) ++
        self.sweepResult t := by
  rw [sweepBlock_instructions self huniq basicBlock hb, hsplit, List.flatMap_append,
    sweepResult_nonTerminators self before hbefore, List.flatMap_singleton]

/-- A terminator of a block that ends in one terminator is its last instruction. -/
theorem BasicBlock.terminator_last {basicBlock : BasicBlock}
    (hterm : basicBlock.endsInOneTerminator = true) {t : Instruction}
    (ht : t ∈ basicBlock.instructions) (hisT : t.isTerminator = true) :
    ∃ before, basicBlock.instructions = before ++ [t] ∧
      ∀ i ∈ before, i.isTerminator = false := by
  obtain ⟨before, last, hsplit, _, hbefore⟩ :=
    (BasicBlock.endsInOneTerminator_iff basicBlock).mp hterm
  rw [hsplit, List.mem_append, List.mem_singleton] at ht
  rcases ht with ht | rfl
  · rw [hbefore t ht] at hisT; cases hisT
  · exact ⟨before, hsplit, hbefore⟩

/-- A terminator at which the first loop of `sweep` changes nothing is still the terminator
of its block after `sweep`, nothing was inserted in its block, and it is not on
`deadInstructions`. -/
theorem sweep_keeps_terminator (self : MarkAndSweepDCE) (hwf : self.function.WellFormed)
    (basicBlock : BasicBlock) (t : Instruction) (hb : basicBlock ∈ self.function.blocks)
    (ht : t ∈ basicBlock.instructions) (hisT : t.isTerminator = true)
    (hvisit : self.sweepVisit t = ([t], [])) :
    t.id ∉ self.deadInstructions ∧
      (∃ after ∈ self.sweep.1.blocks, after.id = basicBlock.id ∧
        after.getTerminator = some t ∧ ∀ x ∈ after.instructions, x ∈ basicBlock.instructions) ∧
      (self.sweep.2 = true ↔
        ∃ i ∈ self.function.instructions, i ≠ t ∧ self.sweep.1.Lacks i) := by
  obtain ⟨huniq, _, _, hterm⟩ := hwf
  have htm : t ∈ self.function.instructions := Function.mem_instructions.mpr ⟨_, hb, ht⟩
  obtain ⟨before, hsplit, hbefore⟩ := BasicBlock.terminator_last (hterm _ hb) ht hisT
  have hres : self.sweepResult t = [t] := by
    rcases sweepResult_cases self t with ⟨_, h⟩ | ⟨h, _⟩ | ⟨_, h, _⟩
    · exact h
    · rw [hvisit] at h; simp at h
    · rw [hvisit] at h; simp at h
  have hafter := sweepBlock_split self huniq basicBlock hb before t hsplit hbefore
  rw [hres] at hafter
  have hpresent : t ∈ self.sweep.1.instructions :=
    sweep_mem_instructions.mpr ⟨basicBlock, hb, by rw [hafter]; simp⟩
  refine ⟨not_dead_of_sweepVisit self huniq t htm hvisit,
    ⟨self.sweepBlock basicBlock, sweepBlock_mem self basicBlock hb, rfl, ?_, ?_⟩, ?_⟩
  · exact BasicBlock.getTerminator_eq_some.mpr ⟨⟨_, hafter⟩, hisT⟩
  · intro x hx
    rw [hafter, List.mem_append, List.mem_singleton] at hx
    rw [hsplit, List.mem_append, List.mem_singleton]
    rcases hx with hx | hx
    · exact Or.inl (List.mem_filter.mp hx).1
    · exact Or.inr hx
  · rw [sweep_changed_iff_lacks]
    constructor
    · rintro ⟨i, hi, hl⟩
      refine ⟨i, hi, ?_, hl⟩
      rintro rfl
      exact hl i hpresent rfl
    · rintro ⟨i, hi, _, hl⟩
      exact ⟨i, hi, hl⟩

/-- C8 (changed flag).  `sweep ( )` returns true exactly when some instruction of the
function was deleted (no instruction with its address is left); when every instruction is
live, or a terminator that is not a conditional branch, or a conditional branch outside the
live set with no block of `aliveBasicBlocks` on its post-dominator chain, `sweep ( )` returns
false and leaves the function as it is; and `apply ( )` returns true exactly when some
instruction of the function was deleted. -/
theorem sweep_changed_iff_deleted (self : MarkAndSweepDCE) (function : Function)
    (postDominatorTree : PostDominatorTree) :
    (self.sweep.2 = true ↔ ∃ i ∈ self.function.instructions, self.sweep.1.Lacks i) ∧
      ((∀ i ∈ self.function.instructions,
          i.id ∈ self.aliveInstructions ∨
            (i.isTerminator = true ∧ ¬(i.opcode = Opcode.br ∧ i.isUnconditional = false)) ∨
            (i.opcode = Opcode.br ∧ i.isUnconditional = false ∧
              i.id ∉ self.aliveInstructions ∧
              ∀ block ∈ (self.postDominatorTree.getIDom i.parent).chain,
                block ∉ self.aliveBasicBlocks)) →
        self.sweep = (self.function, false)) ∧
      (((MarkAndSweepDCE.new function postDominatorTree).apply).2 = true ↔
        ∃ i ∈ function.instructions,
          ((MarkAndSweepDCE.new function postDominatorTree).apply).1.Lacks i) := by
  refine ⟨sweep_changed_iff_lacks self, ?_, ?_⟩
  · intro h
    have hnil : self.deadInstructions = [] := by
      apply List.eq_nil_iff_forall_not_mem.mpr
      intro id hid
      obtain ⟨i, hi, hd⟩ := mem_deadInstructions.mp hid
      rcases sweepVisit_cases self i with
        ⟨h1, _⟩ | ⟨_, h2, h3⟩ | ⟨block, _, h2, _, h4, h5, h6⟩
      · rw [h1] at hd; exact absurd hd (List.not_mem_nil _)
      · rcases h i hi with ha | ⟨ht, _⟩ | ⟨hbr, _⟩
        · exact h2 ha
        · rw [h3] at ht; cases ht
        · rw [Instruction.isTerminator_of_br hbr] at h3; cases h3
      · rcases h i hi with ha | ⟨_, hn⟩ | ⟨_, _, _, hchain⟩
        · exact h2 ha
        · exact hn ⟨h4, h5⟩
        · rw [DomTreeNode.findAlive_eq_none.mpr hchain] at h6; cases h6
    have hflag : self.sweep.2 = false := by
      simp [MarkAndSweepDCE.sweep, hnil]
    exact Prod.ext (sweep_unchanged self hnil) hflag
  · have h := sweep_changed_iff_lacks (MarkAndSweepDCE.marked function postDominatorTree)
    rw [marked_function] at h
    exact h

/-- Witness of C8: in `spin` nothing is live and the only conditional branch has no
post-dominator, so `sweep ( )` returns false and changes nothing. -/
theorem sweep_changed_iff_deleted_witness :
    (∀ i ∈ (MarkAndSweepDCE.marked Example.spin Example.spinTree).function.instructions,
        i.id ∈ (MarkAndSweepDCE.marked Example.spin Example.spinTree).aliveInstructions ∨
          (i.isTerminator = true ∧ ¬(i.opcode = Opcode.br ∧ i.isUnconditional = false)) ∨
          (i.opcode = Opcode.br ∧ i.isUnconditional = false ∧
            i.id ∉ (MarkAndSweepDCE.marked Example.spin Example.spinTree).aliveInstructions ∧
            ∀ block ∈ ((MarkAndSweepDCE.marked Example.spin
                Example.spinTree).postDominatorTree.getIDom i.parent).chain,
              block ∉ (MarkAndSweepDCE.marked Example.spin
                Example.spinTree).aliveBasicBlocks)) ∧
      (MarkAndSweepDCE.marked Example.spin Example.spinTree).sweep =
        ((MarkAndSweepDCE.marked Example.spin Example.spinTree).function, false) :=
  ⟨by decide,
    (sweep_changed_iff_deleted (MarkAndSweepDCE.marked Example.spin Example.spinTree)
      Example.spin Example.spinTree).2.1 (by decide)⟩

/-- C9 (unreachable-post-dominator safety).  In a well-formed function, a conditional branch
that is not in the live set and whose post-dominator chain holds no block of
`aliveBasicBlocks` is not pushed on `deadInstructions`; after `sweep ( )` it is still, with
its operands, the terminator of its block, and every instruction of that block was there
before (nothing was inserted); and `sweep ( )` returns true exactly when some other
instruction of the function was deleted. -/
theorem sweep_keeps_branch_without_alive_postdominator (self : MarkAndSweepDCE)
    (hwf : self.function.WellFormed) (basicBlock : BasicBlock) (branch : Instruction)
    (hb : basicBlock ∈ self.function.blocks) (hi : branch ∈ basicBlock.instructions)
    (hbr : branch.opcode = Opcode.br) (hcond : branch.isUnconditional = false)
    (hdead : branch.id ∉ self.aliveInstructions)
    (hchain : ∀ block ∈ (self.postDominatorTree.getIDom branch.parent).chain,
      block ∉ self.aliveBasicBlocks) :
    branch.id ∉ self.deadInstructions ∧
      (∃ after ∈ self.sweep.1.blocks, after.id = basicBlock.id ∧
        after.getTerminator = some branch ∧
        ∀ x ∈ after.instructions, x ∈ basicBlock.instructions) ∧
      (self.sweep.2 = true ↔
        ∃ i ∈ self.function.instructions, i ≠ branch ∧ self.sweep.1.Lacks i) := by
  have hisT := Instruction.isTerminator_of_br hbr
  refine sweep_keeps_terminator self hwf basicBlock branch hb hi hisT ?_
  rcases sweepVisit_cases self branch with ⟨h1, _⟩ | ⟨_, _, h3⟩ | ⟨block, _, _, _, _, _, h6⟩
  · exact h1
  · rw [hisT] at h3; cases h3
  · rw [DomTreeNode.findAlive_eq_none.mpr hchain] at h6; cases h6

/-- Witness of C9: the conditional branch of block 0 of `spin`. -/
theorem sweep_keeps_branch_without_alive_postdominator_witness :
    (1 : InstId) ∉ (MarkAndSweepDCE.marked Example.spin Example.spinTree).deadInstructions ∧
      (∃ after ∈ (MarkAndSweepDCE.marked Example.spin Example.spinTree).sweep.1.blocks,
        after.id = 0 ∧
        after.getTerminator = some (Example.instruction 1 0 Opcode.br
          [Value.argument 0 false, Value.basicBlock 2, Value.basicBlock 1]) ∧
        ∀ x ∈ after.instructions, x ∈ [Example.instruction 1 0 Opcode.br
          [Value.argument 0 false, Value.basicBlock 2, Value.basicBlock 1]]) ∧
      ((MarkAndSweepDCE.marked Example.spin Example.spinTree).sweep.2 = true ↔
        ∃ i ∈ (MarkAndSweepDCE.marked Example.spin Example.spinTree).function.instructions,
          i ≠ Example.instruction 1 0 Opcode.br
            [Value.argument 0 false, Value.basicBlock 2, Value.basicBlock 1] ∧
          (MarkAndSweepDCE.marked Example.spin Example.spinTree).sweep.1.Lacks i) :=
  sweep_keeps_branch_without_alive_postdominator
    (MarkAndSweepDCE.marked Example.spin Example.spinTree) (by decide)
    { id := 0
      instructions := [Example.instruction 1 0 Opcode.br
        [Value.argument 0 false, Value.basicBlock 2, Value.basicBlock 1]] }
    (Example.instruction 1 0 Opcode.br
      [Value.argument 0 false, Value.basicBlock 2, Value.basicBlock 1])
    (by decide) (by decide) rfl rfl (by decide) (by decide)

/-- C10 (dead unconditional branches are kept).  In a well-formed function, an unconditional
branch that is not in the live set is not pushed on `deadInstructions`; after `sweep ( )` it
is still, with its operands, the terminator of its block, and every instruction of that block
was there before; and `sweep ( )` returns true exactly when some other instruction of the
function was deleted. -/
theorem sweep_keeps_dead_unconditional_branch (self : MarkAndSweepDCE)
    (hwf : self.function.WellFormed) (basicBlock : BasicBlock) (branch : Instruction)
    (hb : basicBlock ∈ self.function.blocks) (hi : branch ∈ basicBlock.instructions)
    (hbr : branch.opcode = Opcode.br) (huncond : branch.isUnconditional = true)
    (hdead : branch.id ∉ self.aliveInstructions) :
    branch.id ∉ self.deadInstructions ∧
      (∃ after ∈ self.sweep.1.blocks, after.id = basicBlock.id ∧
        after.getTerminator = some branch ∧
        ∀ x ∈ after.instructions, x ∈ basicBlock.instructions) ∧
      (self.sweep.2 = true ↔
        ∃ i ∈ self.function.instructions, i ≠ branch ∧ self.sweep.1.Lacks i) := by
  have hisT := Instruction.isTerminator_of_br hbr
  refine sweep_keeps_terminator self hwf basicBlock branch hb hi hisT ?_
  rcases sweepVisit_cases self branch with ⟨h1, _⟩ | ⟨_, _, h3⟩ | ⟨block, _, _, _, _, h5, _⟩
  · exact h1
  · rw [hisT] at h3; cases h3
  · rw [huncond] at h5; cases h5

/-- Witness of C10: the unconditional branch of block 1 of `diamond`. -/
theorem sweep_keeps_dead_unconditional_branch_witness :
    (3 : InstId) ∉
        (MarkAndSweepDCE.marked Example.diamond Example.diamondTree).deadInstructions ∧
      (∃ after ∈ (MarkAndSweepDCE.marked Example.diamond Example.diamondTree).sweep.1.blocks,
        after.id = 1 ∧
        after.getTerminator = some (Example.instruction 3 1 Opcode.br [Value.basicBlock 3]) ∧
        ∀ x ∈ after.instructions,
          x ∈ [Example.instruction 3 1 Opcode.br [Value.basicBlock 3]]) ∧
      ((MarkAndSweepDCE.marked Example.diamond Example.diamondTree).sweep.2 = true ↔
        ∃ i ∈ (MarkAndSweepDCE.marked Example.diamond
            Example.diamondTree).function.instructions,
          i ≠ Example.instruction 3 1 Opcode.br [Value.basicBlock 3] ∧
          (MarkAndSweepDCE.marked Example.diamond Example.diamondTree).sweep.1.Lacks i) :=
  sweep_keeps_dead_unconditional_branch
    (MarkAndSweepDCE.marked Example.diamond Example.diamondTree) (by decide)
    { id := 1, instructions := [Example.instruction 3 1 Opcode.br [Value.basicBlock 3]] }
    (Example.instruction 3 1 Opcode.br [Value.basicBlock 3])
    (by decide) (by decide) rfl rfl (by decide)

/-- C4 (branch simplification).  In a well-formed function, take a conditional branch that is
not in the live set and whose post-dominator chain (from the immediate post-dominator of its
block towards the root) holds a block of `aliveBasicBlocks`.  Then the chain splits as
`nearer ++ target :: further` with `target` in `aliveBasicBlocks` and no block of `nearer` in
it; after `sweep ( )` no instruction has the address of the branch, and the terminator of its
block is a new branch whose only operand is `target`. -/
theorem sweep_rewrites_dead_branch (self : MarkAndSweepDCE)
    (hwf : self.function.WellFormed) (basicBlock : BasicBlock) (branch : Instruction)
    (hb : basicBlock ∈ self.function.blocks) (hi : branch ∈ basicBlock.instructions)
    (hbr : branch.opcode = Opcode.br) (hcond : branch.isUnconditional = false)
    (hdead : branch.id ∉ self.aliveInstructions)
    (hchain : ∃ block ∈ (self.postDominatorTree.getIDom branch.parent).chain,
      block ∈ self.aliveBasicBlocks) :
    ∃ target nearer further,
      (self.postDominatorTree.getIDom branch.parent).chain = nearer ++ target :: further ∧
        target ∈ self.aliveBasicBlocks ∧
        (∀ block ∈ nearer, block ∉ self.aliveBasicBlocks) ∧
        self.sweep.1.Lacks branch ∧
        ∃ after ∈ self.sweep.1.blocks, after.id = basicBlock.id ∧
          ∃ newBranch, after.getTerminator = some newBranch ∧
            newBranch.opcode = Opcode.br ∧
            newBranch.operands = [Value.basicBlock target] ∧
            newBranch.isUnconditional = true ∧
            ∀ i ∈ self.function.instructions, i.id ≠ newBranch.id := by
  obtain ⟨huniq, _, _, hterm⟩ := hwf
  have hisT := Instruction.isTerminator_of_br hbr
  have hmem : branch ∈ self.function.instructions :=
    Function.mem_instructions.mpr ⟨_, hb, hi⟩
  obtain ⟨before, hsplit, hbefore⟩ := BasicBlock.terminator_last (hterm _ hb) hi hisT
  rcases sweepResult_cases self branch with
    ⟨h1, _⟩ | ⟨_, _, _, h3⟩ | ⟨target, hvisit, hres, _, _, _, _, hfind⟩
  · exfalso
    rcases sweepVisit_cases self branch with
      ⟨_, h2⟩ | ⟨h2, _⟩ | ⟨_, h2, _⟩
    · rcases h2 with h2 | ⟨_, h2 | h2 | h2⟩
      · exact hdead h2
      · exact h2 hbr
      · rw [hcond] at h2; cases h2
      · obtain ⟨block, hc, ha⟩ := hchain
        exact DomTreeNode.findAlive_eq_none.mp h2 block hc ha
    · rw [h1] at h2; simp at h2
    · rw [h1] at h2; simp at h2
  · rw [hisT] at h3; cases h3
  · obtain ⟨nearer, further, hc, ht, hn⟩ := DomTreeNode.findAlive_eq_some hfind
    have hd : branch.id ∈ self.deadInstructions :=
      mem_deadInstructions.mpr ⟨branch, hmem, by rw [hvisit]; exact List.mem_singleton_self _⟩
    have hafter := sweepBlock_split self huniq basicBlock hb before branch hsplit hbefore
    rw [hres] at hafter
    refine ⟨target, nearer, further, hc, ht, hn, sweep_lacks_dead self _ hd,
      self.sweepBlock basicBlock, sweepBlock_mem self basicBlock hb, rfl,
      BranchInst.Create self.function target branch, ?_, rfl, rfl, rfl, ?_⟩
    · exact BasicBlock.getTerminator_eq_some.mpr ⟨⟨_, hafter⟩, rfl⟩
    · intro i him hid
      have hlt := Function.id_lt_addressLimit him
      have hnew : (BranchInst.Create self.function target branch).id =
          self.function.addressLimit + branch.id := rfl
      rw [hid, hnew] at hlt
      have hlt2 : self.function.addressLimit + branch.id < self.function.addressLimit := hlt
      omega

/-- Witness of C4: the conditional branch of block 0 of `diamond`. -/
theorem sweep_rewrites_dead_branch_witness :
    ∃ target nearer further,
      ((MarkAndSweepDCE.marked Example.diamond Example.diamondTree).postDominatorTree.getIDom
          0).chain = nearer ++ target :: further ∧
        target ∈ (MarkAndSweepDCE.marked Example.diamond Example.diamondTree).aliveBasicBlocks ∧
        (∀ block ∈ nearer,
          block ∉ (MarkAndSweepDCE.marked Example.diamond
            Example.diamondTree).aliveBasicBlocks) ∧
        (MarkAndSweepDCE.marked Example.diamond Example.diamondTree).sweep.1.Lacks
          (Example.instruction 2 0 Opcode.br
            [Value.instruction 1, Value.basicBlock 2, Value.basicBlock 1]) ∧
        ∃ after ∈ (MarkAndSweepDCE.marked Example.diamond
            Example.diamondTree).sweep.1.blocks, after.id = 0 ∧
          ∃ newBranch, after.getTerminator = some newBranch ∧
            newBranch.opcode = Opcode.br ∧
            newBranch.operands = [Value.basicBlock target] ∧
            newBranch.isUnconditional = true ∧
            ∀ i ∈ (MarkAndSweepDCE.marked Example.diamond
                Example.diamondTree).function.instructions, i.id ≠ newBranch.id :=
  sweep_rewrites_dead_branch (MarkAndSweepDCE.marked Example.diamond Example.diamondTree)
    (by decide)
    { id := 0
      instructions :=
        [ Example.instruction 1 0 Opcode.icmp [Value.argument 0 false, Value.constant 0],
          Example.instruction 2 0 Opcode.br
            [Value.instruction 1, Value.basicBlock 2, Value.basicBlock 1] ] }
    (Example.instruction 2 0 Opcode.br
      [Value.instruction 1, Value.basicBlock 2, Value.basicBlock 1])
    (by decide) (by decide) rfl rfl (by decide) (by decide)

/-- C7 (block well-formedness is preserved).  If the instructions of the function have
distinct addresses and every block ends in exactly one terminator, then `sweep ( )` returns a
function with the same blocks in the same order: each block keeps its address and still ends
in exactly one terminator, and if its former terminator is no longer in it, its terminator is
an unconditional branch that `sweep ( )` created in front of the former one. -/
theorem sweep_preserves_block_structure (self : MarkAndSweepDCE)
    (huniq : self.function.UniqueAddresses) (hterm : self.function.BlocksTerminated) :
    List.Forall₂
      (fun before after =>
        after.id = before.id ∧ after.endsInOneTerminator = true ∧
          ∀ t, before.getTerminator = some t → t ∉ after.instructions →
            ∃ target, after.getTerminator =
                some (BranchInst.Create self.function target t) ∧
              (BranchInst.Create self.function target t).isUnconditional = true)
      self.function.blocks self.sweep.1.blocks := by
  rw [sweep_blocks, List.forall₂_map_right_iff, List.forall₂_same]
  intro basicBlock hb
  obtain ⟨before, last, hsplit, hlast, hbefore⟩ :=
    (BasicBlock.endsInOneTerminator_iff basicBlock).mp (hterm basicBlock hb)
  have hafter := sweepBlock_split self huniq basicBlock hb before last hsplit hbefore
  have hfilter : ∀ i ∈ before.filter (fun i => decide (i.id ∈ self.aliveInstructions)),
      i.isTerminator = false := fun i hi => hbefore i (List.mem_filter.mp hi).1
  refine ⟨rfl, ?_, ?_⟩
  · rw [BasicBlock.endsInOneTerminator_iff]
    rcases sweepResult_cases self last with ⟨_, h⟩ | ⟨_, _, _, h⟩ | ⟨target, _, h, _⟩
    · exact ⟨_, last, by rw [hafter, h], hlast, hfilter⟩
    · rw [hlast] at h; cases h
    · exact ⟨_, BranchInst.Create self.function target last, by rw [hafter, h], rfl, hfilter⟩
  · intro t ht hgone
    obtain ⟨⟨before2, hsplit2⟩, _⟩ := BasicBlock.getTerminator_eq_some.mp ht
    have hlt : last = t := by
      have h := hsplit.symm.trans hsplit2
      exact (List.append_inj' h rfl).2 |> List.singleton_inj.mp
    subst hlt
    rcases sweepResult_cases self last with ⟨_, h⟩ | ⟨_, _, _, h⟩ | ⟨target, _, h, _⟩
    · exfalso
      apply hgone
      rw [hafter, h]
      simp
    · rw [hlast] at h; cases h
    · refine ⟨target, ?_, rfl⟩
      exact BasicBlock.getTerminator_eq_some.mpr ⟨⟨_, by rw [hafter, h]⟩, rfl⟩

/-- Witness of C7: `diamond` with its final live set. -/
theorem sweep_preserves_block_structure_witness :
    List.Forall₂
      (fun before after =>
        after.id = before.id ∧ after.endsInOneTerminator = true ∧
          ∀ t, before.getTerminator = some t → t ∉ after.instructions →
            ∃ target, after.getTerminator =
                some (BranchInst.Create
                  (MarkAndSweepDCE.marked Example.diamond Example.diamondTree).function
                  target t) ∧
              (BranchInst.Create
                (MarkAndSweepDCE.marked Example.diamond Example.diamondTree).function
                target t).isUnconditional = true)
      (MarkAndSweepDCE.marked Example.diamond Example.diamondTree).function.blocks
      (MarkAndSweepDCE.marked Example.diamond Example.diamondTree).sweep.1.blocks :=
  sweep_preserves_block_structure (MarkAndSweepDCE.marked Example.diamond Example.diamondTree)
    (by decide) (by decide)

/-- C5 (no dangling operand references): the code breaks it.  In `switchCase` the value the
`switch` of block 0 tests (address 1) is not live and is deleted, while the `switch` (address
2), a terminator outside the live set that is not a branch, stays in block 0 with the deleted
instruction as its operand 0. -/
theorem sweep_leaves_dangling_operand :
    Example.switchCase.WellFormed ∧
      ((MarkAndSweepDCE.new Example.switchCase Example.switchCaseTree).apply).1.Contains 0
        (Example.instruction 2 0 Opcode.switch
          [Value.instruction 1, Value.basicBlock 2, Value.constant 0, Value.basicBlock 1]) ∧
      (1 : InstId) ∈
        (MarkAndSweepDCE.marked Example.switchCase Example.switchCaseTree).deadInstructions ∧
      ((MarkAndSweepDCE.new Example.switchCase Example.switchCaseTree).apply).1.Lacks
        (Example.instruction 1 0 Opcode.binop [Value.argument 0 false, Value.constant 1]) ∧
      (∃ user ∈
          ((MarkAndSweepDCE.new Example.switchCase Example.switchCaseTree).apply).1.instructions,
        ∃ id ∈ (MarkAndSweepDCE.marked Example.switchCase
            Example.switchCaseTree).deadInstructions,
          Value.instruction id ∈ user.operands) := by
  decide

/-- C15 (oracle store rule).  Every store may have side effects and may write to memory, and
`isLive` is true for it exactly when one of its operands is a global variable or one of its
operands is a function argument of pointer type. -/
theorem isLive_store_iff (i : Instruction) (hstore : i.opcode = Opcode.store) :
    i.mayHaveSideEffects = true ∧ i.mayWriteToMemory = true ∧
      (MarkAndSweepDCE.isLive i = true ↔
        (∃ v ∈ i.operands, v.isGlobalVariable = true) ∨
          (∃ v ∈ i.operands, v.isArgumentPassedByPointer = true)) := by
  refine ⟨?_, ?_, ?_⟩
  · simp [Instruction.mayHaveSideEffects, Instruction.mayWriteToMemory, hstore]
  · simp [Instruction.mayWriteToMemory, hstore]
  · rw [isLive_store i hstore, Bool.or_eq_true, List.any_eq_true, List.any_eq_true]

/-- Witness of C15: a store of a constant through a pointer argument. -/
theorem isLive_store_iff_witness :
    (Example.instruction 1 0 Opcode.store
        [Value.constant 7, Value.argument 0 true]).mayHaveSideEffects = true ∧
      (Example.instruction 1 0 Opcode.store
        [Value.constant 7, Value.argument 0 true]).mayWriteToMemory = true ∧
      (MarkAndSweepDCE.isLive (Example.instruction 1 0 Opcode.store
          [Value.constant 7, Value.argument 0 true]) = true ↔
        (∃ v ∈ (Example.instruction 1 0 Opcode.store
            [Value.constant 7, Value.argument 0 true]).operands, v.isGlobalVariable = true) ∨
          (∃ v ∈ (Example.instruction 1 0 Opcode.store
            [Value.constant 7, Value.argument 0 true]).operands,
            v.isArgumentPassedByPointer = true)) :=
  isLive_store_iff
    (Example.instruction 1 0 Opcode.store [Value.constant 7, Value.argument 0 true]) rfl

/-- C16 (oracle rule for non-stores).  For an instruction that is not a store, `isLive` is
true exactly when it is a return or may have side effects; so a non-store that may have side
effects is live, and a non-store that is not a return and has no side effects is not
intrinsically live. -/
theorem isLive_nonStore_iff (i : Instruction) (hnonStore : i.opcode ≠ Opcode.store) :
    (MarkAndSweepDCE.isLive i = true ↔
        i.opcode = Opcode.ret ∨ i.mayHaveSideEffects = true) ∧
      (i.mayHaveSideEffects = true → MarkAndSweepDCE.isLive i = true) ∧
      (i.opcode ≠ Opcode.ret → i.mayHaveSideEffects = false →
        MarkAndSweepDCE.isLive i = false) := by
  have hiff : MarkAndSweepDCE.isLive i = true ↔
      i.opcode = Opcode.ret ∨ i.mayHaveSideEffects = true := by
    unfold MarkAndSweepDCE.isLive
    by_cases hret : i.opcode = Opcode.ret
    · simp [hret]
    · by_cases hside : i.mayHaveSideEffects = true
      · by_cases hwrite : i.mayWriteToMemory = true
        · simp [hret, hside, hwrite, hnonStore]
        · simp [hret, hside, hwrite]
      · simp [hret, hside]
  refine ⟨hiff, fun h => hiff.mpr (Or.inr h), fun hret hside => ?_⟩
  cases hl : MarkAndSweepDCE.isLive i with
  | false => rfl
  | true =>
    rcases hiff.mp hl with h | h
    · exact absurd h hret
    · rw [hside] at h; cases h

/-- Witness of C16: a call that may write to memory. -/
theorem isLive_nonStore_iff_witness :
    (MarkAndSweepDCE.isLive
          { id := 1, parent := 0, opcode := Opcode.call, operands := [Value.constant 0]
            writesMemory := true, mayThrow := false } = true ↔
        Opcode.call = Opcode.ret ∨
          Instruction.mayHaveSideEffects
            { id := 1, parent := 0, opcode := Opcode.call, operands := [Value.constant 0]
              writesMemory := true, mayThrow := false } = true) ∧
      (Instruction.mayHaveSideEffects
            { id := 1, parent := 0, opcode := Opcode.call, operands := [Value.constant 0]
              writesMemory := true, mayThrow := false } = true →
        MarkAndSweepDCE.isLive
          { id := 1, parent := 0, opcode := Opcode.call, operands := [Value.constant 0]
            writesMemory := true, mayThrow := false } = true) ∧
      (Opcode.call ≠ Opcode.ret →
        Instruction.mayHaveSideEffects
            { id := 1, parent := 0, opcode := Opcode.call, operands := [Value.constant 0]
              writesMemory := true, mayThrow := false } = false →
        MarkAndSweepDCE.isLive
          { id := 1, parent := 0, opcode := Opcode.call, operands := [Value.constant 0]
            writesMemory := true, mayThrow := false } = false) :=
  isLive_nonStore_iff
    { id := 1, parent := 0, opcode := Opcode.call, operands := [Value.constant 0]
      writesMemory := true, mayThrow := false } (by decide)

/-! ## Runs that take pending instructions in any order -/

theorem initializeLiveSet_eq (self : MarkAndSweepDCE) :
    self.initializeLiveSet = self.initializeInOrder self.function.instructions := rfl

theorem initializeInOrder_pushes (self : MarkAndSweepDCE) (order : List Instruction) :
    self.Pushes (self.initializeInOrder order) := by
  unfold MarkAndSweepDCE.initializeInOrder
  apply foldl_pushes
  intro state instruction
  dsimp only
  split
  · exact markInstruction_pushes state instruction
  · exact MarkAndSweepDCE.Pushes.refl state

theorem initializeInOrder_popped (self : MarkAndSweepDCE) (order : List Instruction) (k : Nat)
    (horder : ∀ i ∈ order, i ∈ self.function.instructions) (h : self.Popped k) :
    (self.initializeInOrder order).Popped k := by
  unfold MarkAndSweepDCE.initializeInOrder
  refine foldl_invariant _ (fun s => s.Popped k ∧ s.function = self.function) _ ?_ self
    ⟨h, rfl⟩ |>.1
  intro state instruction hmem hs
  dsimp only
  split
  · exact ⟨markInstruction_popped state instruction k hs.1 (hs.2 ▸ horder _ hmem),
      (markInstruction_pushes state instruction).function_eq.trans hs.2⟩
  · exact hs

theorem initializeInOrder_seeds (self : MarkAndSweepDCE) (order : List Instruction)
    (instruction : Instruction) (hmem : instruction ∈ order)
    (hlive : MarkAndSweepDCE.isLive instruction = true) :
    instruction.id ∈ (self.initializeInOrder order).aliveInstructions := by
  unfold MarkAndSweepDCE.initializeInOrder
  refine foldl_achieves _
    (fun i state => MarkAndSweepDCE.isLive i = true → i.id ∈ state.aliveInstructions)
    ?_ ?_ ?_ order self instruction hmem hlive
  · intro state i
    dsimp only
    split
    · exact markInstruction_pushes state i
    · exact MarkAndSweepDCE.Pushes.refl state
  · intro i s t hst h hl
    exact hst.alive_subset (h hl)
  · intro state i hl
    simp only [hl, if_true]
    exact markInstruction_alive state i

theorem take_popped (self : MarkAndSweepDCE) (newer : List Instruction)
    (currentInstruction : Instruction) (older : List Instruction) (k : Nat)
    (h : self.Popped k)
    (hw : self.instructionWorkList = newer ++ currentInstruction :: older) :
    MarkAndSweepDCE.Popped { self with instructionWorkList := newer ++ older } (k + 1) := by
  obtain ⟨hc, hlen⟩ := h
  have hnd := hc.workList_nodup
  rw [hw] at hnd
  have hsub : (newer ++ older).Sublist (newer ++ currentInstruction :: older) :=
    List.Sublist.append_left (List.sublist_cons_self _ _) _
  refine ⟨⟨hc.alive_nodup, (hnd.sublist (hsub.map _)),
    (fun w hwm => ?_), hc.alive_mem⟩, ?_⟩
  · exact hc.workList_mem w (hw ▸ hsub.subset hwm)
  · rw [hw] at hlen
    simp only [List.length_append, List.length_cons] at hlen
    show self.aliveInstructions.length = (newer ++ older).length + (k + 1)
    rw [List.length_append]
    omega

theorem MarkAndSweepDCE.Takes.pushes_alive {s t : MarkAndSweepDCE} (h : MarkAndSweepDCE.Takes s t) :
    t.function = s.function ∧ t.postDominatorTree = s.postDominatorTree ∧
      s.aliveInstructions ⊆ t.aliveInstructions ∧ s.aliveBasicBlocks ⊆ t.aliveBasicBlocks := by
  cases h with
  | take newer currentInstruction older hw =>
    have hv := markVisit_pushes { s with instructionWorkList := newer ++ older }
      currentInstruction
    exact ⟨hv.function_eq, hv.tree_eq, hv.alive_subset, hv.blocks_subset⟩

theorem MarkAndSweepDCE.Takes.takes_popped {s t : MarkAndSweepDCE} (h : MarkAndSweepDCE.Takes s t) (k : Nat)
    (hp : s.Popped k) : t.Popped (k + 1) := by
  cases h with
  | take newer currentInstruction older hw =>
    exact markVisit_popped _ currentInstruction (k + 1)
      (take_popped s newer currentInstruction older k hp hw)

theorem MarkAndSweepDCE.Takes.takes_closed {s t : MarkAndSweepDCE} (h : MarkAndSweepDCE.Takes s t) (k : Nat)
    (huniq : s.function.UniqueAddresses) (hp : s.Popped k) (hc : s.Closed []) :
    t.Closed [] := by
  cases h with
  | take newer currentInstruction older hw =>
    have hpop := take_popped s newer currentInstruction older k hp hw
    have hc1 : MarkAndSweepDCE.Closed { s with instructionWorkList := newer ++ older }
        [currentInstruction] := by
      intro i hi ha
      rcases hc i hi ha with h1 | h1 | h1
      · exact absurd h1 (List.not_mem_nil _)
      · rw [hw, List.mem_append, List.mem_cons] at h1
        rcases h1 with h1 | rfl | h1
        · exact Or.inr (Or.inl (List.mem_append_left _ h1))
        · exact Or.inl (List.mem_singleton_self _)
        · exact Or.inr (Or.inl (List.mem_append_right _ h1))
      · exact Or.inr (Or.inr h1)
    exact markVisit_closed _ currentInstruction (k + 1) huniq hpop hc1

theorem MarkAndSweepDCE.Run.grows {n : Nat} {s t : MarkAndSweepDCE} (h : MarkAndSweepDCE.Run n s t) :
    t.function = s.function ∧ t.postDominatorTree = s.postDominatorTree ∧
      s.aliveInstructions ⊆ t.aliveInstructions ∧ s.aliveBasicBlocks ⊆ t.aliveBasicBlocks := by
  induction h with
  | done s => exact ⟨rfl, rfl, fun _ h => h, fun _ h => h⟩
  | next htake _ ih =>
    obtain ⟨h1, h2, h3, h4⟩ := htake.pushes_alive
    obtain ⟨i1, i2, i3, i4⟩ := ih
    exact ⟨i1.trans h1, i2.trans h2, fun _ h => i3 (h3 h), fun _ h => i4 (h4 h)⟩

theorem MarkAndSweepDCE.Run.run_popped {n : Nat} {s t : MarkAndSweepDCE} (h : MarkAndSweepDCE.Run n s t) (k : Nat)
    (hp : s.Popped k) : t.Popped (k + n) := by
  induction h generalizing k with
  | done s => exact hp
  | next htake _ ih =>
    have := ih (k + 1) (htake.takes_popped k hp)
    rw [Nat.add_assoc, Nat.add_comm 1] at this
    exact this

theorem MarkAndSweepDCE.Run.run_closed {n : Nat} {s t : MarkAndSweepDCE} (h : MarkAndSweepDCE.Run n s t) (k : Nat)
    (huniq : s.function.UniqueAddresses) (hp : s.Popped k) (hc : s.Closed []) :
    t.Closed [] := by
  induction h generalizing k with
  | done s => exact hc
  | next htake _ ih =>
    refine ih (k + 1) ?_ (htake.takes_popped k hp) (htake.takes_closed k huniq hp hc)
    rw [htake.pushes_alive.1]; exact huniq

/-- The loop of `mark ( )` is a run that always takes the newest pending instruction. -/
theorem markLoop_run (fuel : Nat) (self : MarkAndSweepDCE) :
    ∃ n, n ≤ fuel ∧ MarkAndSweepDCE.Run n self (self.markLoop fuel) := by
  induction fuel generalizing self with
  | zero => exact ⟨0, Nat.le_refl _, MarkAndSweepDCE.Run.done self⟩
  | succ fuel ih =>
    unfold MarkAndSweepDCE.markLoop
    split
    · exact ⟨0, Nat.zero_le _, MarkAndSweepDCE.Run.done self⟩
    · next currentInstruction rest hw =>
      obtain ⟨n, hn, hrun⟩ := ih
        (MarkAndSweepDCE.markVisit { self with instructionWorkList := rest } currentInstruction)
      refine ⟨n + 1, Nat.succ_le_succ hn, MarkAndSweepDCE.Run.next ?_ hrun⟩
      have := MarkAndSweepDCE.Takes.take self [] currentInstruction rest hw
      simpa using this

/-- The first-in first-out loop is a run that always takes the oldest pending instruction. -/
theorem markLoopFifo_run (fuel : Nat) (self : MarkAndSweepDCE) :
    ∃ n, n ≤ fuel ∧ MarkAndSweepDCE.Run n self (self.markLoopFifo fuel) := by
  induction fuel generalizing self with
  | zero => exact ⟨0, Nat.le_refl _, MarkAndSweepDCE.Run.done self⟩
  | succ fuel ih =>
    unfold MarkAndSweepDCE.markLoopFifo
    split
    · exact ⟨0, Nat.zero_le _, MarkAndSweepDCE.Run.done self⟩
    · next currentInstruction hlast =>
      obtain ⟨n, hn, hrun⟩ := ih
        (MarkAndSweepDCE.markVisit
          { self with instructionWorkList := self.instructionWorkList.dropLast }
          currentInstruction)
      refine ⟨n + 1, Nat.succ_le_succ hn, MarkAndSweepDCE.Run.next ?_ hrun⟩
      have hw : self.instructionWorkList =
          self.instructionWorkList.dropLast ++ currentInstruction :: [] :=
        (List.dropLast_append_getLast? currentInstruction hlast).symm
      have := MarkAndSweepDCE.Takes.take self self.instructionWorkList.dropLast
        currentInstruction [] hw
      simpa using this

/-! ## Only instructions of the least set are marked -/

theorem push_sound (state : MarkAndSweepDCE) (instruction : Instruction)
    (blocks : List BlockId) (h : state.Sound)
    (hmem : instruction ∈ state.function.instructions)
    (hlive : Live state.function state.postDominatorTree instruction) :
    MarkAndSweepDCE.Sound
      { state with
        aliveInstructions := instruction.id :: state.aliveInstructions
        aliveBasicBlocks := blocks
        instructionWorkList := instruction :: state.instructionWorkList } := by
  constructor
  · intro a ha
    rcases List.mem_cons.mp ha with rfl | ha
    · exact ⟨instruction, hmem, rfl, hlive⟩
    · exact h.alive_live a ha
  · intro w hw
    rcases List.mem_cons.mp hw with rfl | hw
    · exact hlive
    · exact h.workList_live w hw

theorem markInstruction_sound (state : MarkAndSweepDCE) (instruction : Instruction)
    (h : state.Sound) (hmem : instruction ∈ state.function.instructions)
    (hlive : Live state.function state.postDominatorTree instruction) :
    (state.markInstruction instruction).Sound := by
  unfold MarkAndSweepDCE.markInstruction
  split
  · exact h
  · exact push_sound state instruction _ h hmem hlive

theorem markOperands_sound (self : MarkAndSweepDCE) (currentInstruction : Instruction)
    (h : self.Sound)
    (hcur : Live self.function self.postDominatorTree currentInstruction) :
    (self.markOperands currentInstruction).Sound := by
  refine (foldl_invariant MarkAndSweepDCE.markOperand
    (fun s => s.Sound ∧ s.function = self.function ∧
      s.postDominatorTree = self.postDominatorTree) _ ?_ self ⟨h, rfl, rfl⟩).1
  intro state value hvalue ⟨hs, hf, ht⟩
  have hp := markOperand_pushes state value
  refine ⟨?_, hp.function_eq.trans hf, hp.tree_eq.trans ht⟩
  unfold MarkAndSweepDCE.markOperand
  cases value with
  | instruction id =>
    dsimp only
    cases hg : state.function.getInstruction id with
    | none => exact hs
    | some operand =>
      obtain ⟨hm, hid⟩ := Function.getInstruction_mem hg
      refine markInstruction_sound state operand hs hm ?_
      rw [hf, ht]
      refine Live.required hcur (Or.inl ⟨hf ▸ hm, ?_⟩)
      rw [hid]; exact hvalue
  | _ => exact hs

theorem markPhiPredecessors_sound (self : MarkAndSweepDCE) (currentInstruction : Instruction)
    (h : self.Sound)
    (hcur : Live self.function self.postDominatorTree currentInstruction) :
    (self.markPhiPredecessors currentInstruction).Sound := by
  unfold MarkAndSweepDCE.markPhiPredecessors
  split
  · next hphi =>
    refine (foldl_invariant MarkAndSweepDCE.markPredecessor
      (fun s => s.Sound ∧ s.function = self.function ∧
        s.postDominatorTree = self.postDominatorTree) _ ?_ self ⟨h, rfl, rfl⟩).1
    intro state basicBlock hblock ⟨hs, hf, ht⟩
    have hp := markPredecessor_pushes state basicBlock
    refine ⟨?_, hp.function_eq.trans hf, hp.tree_eq.trans ht⟩
    unfold MarkAndSweepDCE.markPredecessor
    cases hg : state.function.getTerminator basicBlock with
    | none => exact hs
    | some terminator =>
      dsimp only
      split
      · exact hs
      · refine push_sound state terminator _ hs (Function.getTerminator_mem hg) ?_
        rw [hf, ht]
        exact Live.required hcur (Or.inr (Or.inl ⟨hphi, basicBlock, hblock, hf ▸ hg⟩))
  · exact h

theorem markControlDependencies_sound (self : MarkAndSweepDCE)
    (currentInstruction : Instruction) (h : self.Sound)
    (hcur : Live self.function self.postDominatorTree currentInstruction) :
    (self.markControlDependencies currentInstruction).Sound := by
  refine (foldl_invariant MarkAndSweepDCE.markControlDependency
    (fun s => s.Sound ∧ s.function = self.function ∧
      s.postDominatorTree = self.postDominatorTree) _ ?_ self ⟨h, rfl, rfl⟩).1
  intro state basicBlock hblock ⟨hs, hf, ht⟩
  have hp := markControlDependency_pushes state basicBlock
  refine ⟨?_, hp.function_eq.trans hf, hp.tree_eq.trans ht⟩
  unfold MarkAndSweepDCE.markControlDependency
  cases hg : state.function.getTerminator basicBlock with
  | none => exact hs
  | some terminator =>
    refine markInstruction_sound state terminator hs (Function.getTerminator_mem hg) ?_
    rw [hf, ht]
    exact Live.required hcur (Or.inr (Or.inr ⟨basicBlock, hblock, hf ▸ hg⟩))

theorem markVisit_sound (self : MarkAndSweepDCE) (currentInstruction : Instruction)
    (h : self.Sound)
    (hcur : Live self.function self.postDominatorTree currentInstruction) :
    (self.markVisit currentInstruction).Sound := by
  have h1 := markOperands_pushes self currentInstruction
  have h2 := markPhiPredecessors_pushes (self.markOperands currentInstruction)
    currentInstruction
  have s1 := markOperands_sound self currentInstruction h hcur
  have s2 := markPhiPredecessors_sound _ currentInstruction s1
    (by rw [h1.function_eq, h1.tree_eq]; exact hcur)
  exact markControlDependencies_sound _ currentInstruction s2
    (by rw [h2.function_eq, h2.tree_eq, h1.function_eq, h1.tree_eq]; exact hcur)

theorem MarkAndSweepDCE.Takes.takes_sound {s t : MarkAndSweepDCE} (h : MarkAndSweepDCE.Takes s t)
    (hs : s.Sound) : t.Sound := by
  cases h with
  | take newer currentInstruction older hw =>
    have hcur : Live s.function s.postDominatorTree currentInstruction :=
      hs.workList_live _ (by rw [hw]; simp)
    refine markVisit_sound _ currentInstruction ⟨hs.alive_live, fun w hwm => ?_⟩ hcur
    refine hs.workList_live w ?_
    rw [hw]
    rcases List.mem_append.mp hwm with h1 | h1
    · exact List.mem_append_left _ h1
    · exact List.mem_append_right _ (List.mem_cons_of_mem _ h1)

theorem MarkAndSweepDCE.Run.run_sound {n : Nat} {s t : MarkAndSweepDCE}
    (h : MarkAndSweepDCE.Run n s t) (hs : s.Sound) : t.Sound := by
  induction h with
  | done s => exact hs
  | next htake _ ih => exact ih (htake.takes_sound hs)

theorem initializeInOrder_sound (self : MarkAndSweepDCE) (order : List Instruction)
    (horder : ∀ i ∈ order, i ∈ self.function.instructions) (h : self.Sound) :
    (self.initializeInOrder order).Sound := by
  unfold MarkAndSweepDCE.initializeInOrder
  refine (foldl_invariant _
    (fun s => s.Sound ∧ s.function = self.function ∧
      s.postDominatorTree = self.postDominatorTree) _ ?_ self ⟨h, rfl, rfl⟩).1
  intro state instruction hmem ⟨hs, hf, ht⟩
  split
  · next hlive =>
    have hp := markInstruction_pushes state instruction
    refine ⟨markInstruction_sound state instruction hs (hf ▸ horder _ hmem) ?_,
      hp.function_eq.trans hf, hp.tree_eq.trans ht⟩
    rw [hf, ht]
    exact Live.seed (horder _ hmem) hlive
  · exact ⟨hs, hf, ht⟩

theorem new_sound (function : Function) (postDominatorTree : PostDominatorTree) :
    (MarkAndSweepDCE.new function postDominatorTree).Sound :=
  ⟨(fun _ h => absurd h (List.not_mem_nil _)), (fun _ h => absurd h (List.not_mem_nil _))⟩

theorem Live.live_mem {function : Function} {postDominatorTree : PostDominatorTree}
    {i : Instruction} (h : Live function postDominatorTree i) : i ∈ function.instructions := by
  cases h with
  | seed hm _ => exact hm
  | required _ hr => exact hr.mem

/-- When a run that started after `initialize` (in any order) has emptied the work list, the
live set holds exactly the addresses of the instructions of the least set `Live`. -/
theorem MarkAndSweepDCE.Run.alive_iff (function : Function)
    (postDominatorTree : PostDominatorTree) (huniq : function.UniqueAddresses)
    (order : List Instruction) (horder : ∀ i, i ∈ order ↔ i ∈ function.instructions)
    (n : Nat) (last : MarkAndSweepDCE)
    (hrun : MarkAndSweepDCE.Run n
      ((MarkAndSweepDCE.new function postDominatorTree).initializeInOrder order) last)
    (hempty : last.instructionWorkList = []) (a : InstId) :
    a ∈ last.aliveInstructions ↔
      ∃ i ∈ function.instructions, i.id = a ∧ Live function postDominatorTree i := by
  have hpush := initializeInOrder_pushes (MarkAndSweepDCE.new function postDominatorTree) order
  have hgrow := hrun.grows
  have hf : last.function = function := hgrow.1.trans hpush.function_eq
  have ht : last.postDominatorTree = postDominatorTree := hgrow.2.1.trans hpush.tree_eq
  have hinit := initializeInOrder_popped (MarkAndSweepDCE.new function postDominatorTree)
    order 0 (fun i hi => (horder i).mp hi) (new_popped function postDominatorTree)
  have hsound := hrun.run_sound (initializeInOrder_sound
    (MarkAndSweepDCE.new function postDominatorTree) order (fun i hi => (horder i).mp hi)
    (new_sound function postDominatorTree))
  have huniq0 : (MarkAndSweepDCE.new function postDominatorTree).function.UniqueAddresses :=
    huniq
  have hc0 : (MarkAndSweepDCE.new function postDominatorTree).Closed [] := by
    intro i _ ha
    exact absurd ha (List.not_mem_nil _)
  have hc1 := closed_of_pushes [] huniq0 hinit.1 hpush hc0
  have huniq1 : ((MarkAndSweepDCE.new function postDominatorTree).initializeInOrder
      order).function.UniqueAddresses := by
    rw [hpush.function_eq]; exact huniq
  have hclosed := hrun.run_closed 0 huniq1 hinit hc1
  constructor
  · intro ha
    obtain ⟨i, hi, hid, hl⟩ := hsound.alive_live a ha
    rw [hf] at hi
    rw [hf, ht] at hl
    exact ⟨i, hi, hid, hl⟩
  · rintro ⟨i, -, rfl, hl⟩
    induction hl with
    | seed hm hlive =>
      exact hgrow.2.2.1 (initializeInOrder_seeds _ order _ ((horder _).mpr hm) hlive)
    | required hprev hreq ih =>
      rcases hclosed _ (hf ▸ hprev.live_mem) ih with h1 | h1 | h1
      · exact absurd h1 (List.not_mem_nil _)
      · rw [hempty] at h1; exact absurd h1 (List.not_mem_nil _)
      · apply h1
        rw [hf, ht]
        exact hreq

/-- The final live set of the pass holds exactly the addresses of the instructions of the
least set `Live`. -/
theorem marked_alive_iff (function : Function) (postDominatorTree : PostDominatorTree)
    (huniq : function.UniqueAddresses) (a : InstId) :
    a ∈ (MarkAndSweepDCE.marked function postDominatorTree).aliveInstructions ↔
      ∃ i ∈ function.instructions, i.id = a ∧ Live function postDominatorTree i := by
  have hfun : (MarkAndSweepDCE.new function postDominatorTree).initializeLiveSet.function =
      function := (initializeLiveSet_pushes _).function_eq
  have hm : MarkAndSweepDCE.marked function postDominatorTree =
      ((MarkAndSweepDCE.new function postDominatorTree).initializeInOrder
        function.instructions).markLoop function.instructions.length := by
    unfold MarkAndSweepDCE.marked MarkAndSweepDCE.mark
    rw [hfun]
    rfl
  obtain ⟨n, _, hrun⟩ := markLoop_run function.instructions.length
    ((MarkAndSweepDCE.new function postDominatorTree).initializeInOrder function.instructions)
  have hempty := mark_workList_empty function postDominatorTree
  rw [hm] at hempty ⊢
  exact MarkAndSweepDCE.Run.alive_iff function postDominatorTree huniq function.instructions
    (fun _ => Iff.rfl) n _ hrun hempty a

/-- An instruction of the function is in the final live set exactly when it is in `Live`. -/
theorem marked_alive_iff_live (function : Function) (postDominatorTree : PostDominatorTree)
    (huniq : function.UniqueAddresses) (i : Instruction) (hi : i ∈ function.instructions) :
    i.id ∈ (MarkAndSweepDCE.marked function postDominatorTree).aliveInstructions ↔
      Live function postDominatorTree i := by
  rw [marked_alive_iff function postDominatorTree huniq]
  constructor
  · rintro ⟨j, hj, hid, hl⟩
    rw [← huniq.eq hj hi hid]; exact hl
  · intro hl
    exact ⟨i, hi, rfl, hl⟩

/-! ## The live set as a least fixpoint -/

theorem Function.getTerminator_isTerminator {function : Function} {block : BlockId}
    {t : Instruction} (h : function.getTerminator block = some t) : t.isTerminator = true := by
  unfold Function.getTerminator at h
  cases hb : function.getBlock block with
  | none => simp [hb] at h
  | some basicBlock =>
    simp only [hb] at h
    exact (BasicBlock.getTerminator_eq_some.mp h).2

/-- An instruction that is not a terminator is in `Live` only as a seed or as an operand of
an instruction of `Live`. -/
theorem Live.nonTerminator {function : Function} {postDominatorTree : PostDominatorTree}
    {i : Instruction} (h : Live function postDominatorTree i) (hnt : i.isTerminator = false) :
    MarkAndSweepDCE.isLive i = true ∨
      ∃ u, Live function postDominatorTree u ∧ Value.instruction i.id ∈ u.operands := by
  cases h with
  | seed _ hl => exact Or.inl hl
  | required hu hreq =>
    rcases hreq with ⟨_, hop⟩ | ⟨_, p, _, hget⟩ | ⟨b, _, hget⟩
    · exact Or.inr ⟨_, hu, hop⟩
    · rw [Function.getTerminator_isTerminator hget] at hnt; cases hnt
    · rw [Function.getTerminator_isTerminator hget] at hnt; cases hnt

/-- An instruction outside the final live set that is not a terminator is deleted. -/
theorem apply_lacks_dead (function : Function) (postDominatorTree : PostDominatorTree)
    (i : Instruction) (hi : i ∈ function.instructions) (hnt : i.isTerminator = false)
    (hdead : i.id ∉ (MarkAndSweepDCE.marked function postDominatorTree).aliveInstructions) :
    ((MarkAndSweepDCE.new function postDominatorTree).apply).1.Lacks i := by
  rw [apply_eq]
  apply sweep_lacks_dead
  apply mem_deadInstructions.mpr
  refine ⟨i, by rw [marked_function]; exact hi, ?_⟩
  rcases sweepVisit_cases (MarkAndSweepDCE.marked function postDominatorTree) i with
    ⟨_, h2⟩ | ⟨h1, _⟩ | ⟨_, _, _, h3, _⟩
  · rcases h2 with h2 | ⟨h2, _⟩
    · exact absurd h2 hdead
    · rw [hnt] at h2; cases h2
  · rw [h1]; exact List.mem_singleton_self _
  · rw [hnt] at h3; cases h3

/-- A store without global-variable or pointer-argument operand that no live instruction has
as an operand is not in the final live set. -/
theorem store_not_alive (function : Function) (postDominatorTree : PostDominatorTree)
    (huniq : function.UniqueAddresses) (s : Instruction) (hs : s ∈ function.instructions)
    (hstore : s.opcode = Opcode.store)
    (hlocal : ∀ v ∈ s.operands,
      v.isGlobalVariable = false ∧ v.isArgumentPassedByPointer = false)
    (hunused : ∀ u ∈ function.instructions,
      u.id ∈ (MarkAndSweepDCE.marked function postDominatorTree).aliveInstructions →
        Value.instruction s.id ∉ u.operands) :
    s.id ∉ (MarkAndSweepDCE.marked function postDominatorTree).aliveInstructions := by
  intro ha
  have hl := (marked_alive_iff_live function postDominatorTree huniq s hs).mp ha
  have hnt : s.isTerminator = false := by
    simp [Instruction.isTerminator, hstore, Opcode.isTerminator]
  rcases hl.nonTerminator hnt with h | ⟨u, hu, hop⟩
  · rw [isLive_store s hstore, Bool.or_eq_true, List.any_eq_true, List.any_eq_true] at h
    rcases h with ⟨v, hv, hg⟩ | ⟨v, hv, hg⟩
    · rw [(hlocal v hv).1] at hg; cases hg
    · rw [(hlocal v hv).2] at hg; cases hg
  · exact hunused u hu.live_mem
      ((marked_alive_iff_live function postDominatorTree huniq u hu.live_mem).mpr hu) hop

/-- C13 (mark computes the least fixpoint).  For a well-formed function, the live set after
`initialize ( )` and `mark ( )` contains every instruction for which `isLive` is true, is
closed under `Requires` (instruction operands; for a phi, the terminators of the predecessors
of its parent block; the terminators of the control dependencies of the parent block), and is
contained in every set with these two properties; so an instruction of the function is in it
exactly when it is in the least such set, and every address in it is that of an instruction
of the function. -/
theorem mark_least_fixpoint (function : Function) (postDominatorTree : PostDominatorTree)
    (hwf : function.WellFormed) :
    (∀ i ∈ function.instructions, MarkAndSweepDCE.isLive i = true →
        i.id ∈ (MarkAndSweepDCE.marked function postDominatorTree).aliveInstructions) ∧
      (∀ i ∈ function.instructions,
        i.id ∈ (MarkAndSweepDCE.marked function postDominatorTree).aliveInstructions →
        ∀ j, Requires function postDominatorTree i j →
          j.id ∈ (MarkAndSweepDCE.marked function postDominatorTree).aliveInstructions) ∧
      (∀ S : Instruction → Prop,
        (∀ i ∈ function.instructions, MarkAndSweepDCE.isLive i = true → S i) →
        (∀ i j, S i → Requires function postDominatorTree i j → S j) →
        ∀ a ∈ (MarkAndSweepDCE.marked function postDominatorTree).aliveInstructions,
          ∃ i ∈ function.instructions, i.id = a ∧ S i) ∧
      (∀ i ∈ function.instructions,
        i.id ∈ (MarkAndSweepDCE.marked function postDominatorTree).aliveInstructions ↔
          Live function postDominatorTree i) := by
  refine ⟨fun i hi hl => marked_seeds function postDominatorTree i hi hl,
    fun i hi ha j hreq => marked_closed function postDominatorTree hwf.1 i j hi ha hreq,
    ?_, fun i hi => marked_alive_iff_live function postDominatorTree hwf.1 i hi⟩
  intro S hseed hclosed a ha
  obtain ⟨i, hi, hid, hl⟩ := (marked_alive_iff function postDominatorTree hwf.1 a).mp ha
  have key : ∀ j, Live function postDominatorTree j → S j := by
    intro j hj
    induction hj with
    | seed hm hlive => exact hseed _ hm hlive
    | required _ hreq ih => exact hclosed _ _ ih hreq
  exact ⟨i, hi, hid, key i hl⟩

/-- Witness of C13: the function `merge`. -/
theorem mark_least_fixpoint_witness :
    Example.merge.WellFormed ∧
      ((∀ i ∈ Example.merge.instructions, MarkAndSweepDCE.isLive i = true →
        i.id ∈ (MarkAndSweepDCE.marked Example.merge Example.diamondTree).aliveInstructions) ∧
      (∀ i ∈ Example.merge.instructions,
        i.id ∈ (MarkAndSweepDCE.marked Example.merge Example.diamondTree).aliveInstructions →
        ∀ j, Requires Example.merge Example.diamondTree i j →
          j.id ∈
            (MarkAndSweepDCE.marked Example.merge Example.diamondTree).aliveInstructions) ∧
      (∀ S : Instruction → Prop,
        (∀ i ∈ Example.merge.instructions, MarkAndSweepDCE.isLive i = true → S i) →
        (∀ i j, S i → Requires Example.merge Example.diamondTree i j → S j) →
        ∀ a ∈ (MarkAndSweepDCE.marked Example.merge Example.diamondTree).aliveInstructions,
          ∃ i ∈ Example.merge.instructions, i.id = a ∧ S i) ∧
      (∀ i ∈ Example.merge.instructions,
        i.id ∈ (MarkAndSweepDCE.marked Example.merge Example.diamondTree).aliveInstructions ↔
          Live Example.merge Example.diamondTree i)) :=
  ⟨by decide, mark_least_fixpoint Example.merge Example.diamondTree (by decide)⟩

/-- C11 (local-store elimination).  In a function whose instructions have distinct addresses,
every instruction that is not a terminator and is not in the final live set is deleted by
`apply ( )`; and a store none of whose operands is a global variable or a function argument
of pointer type, and which no instruction of the final live set has as an operand, is not in
the final live set and is deleted by `apply ( )`. -/
theorem apply_deletes_dead (function : Function) (postDominatorTree : PostDominatorTree)
    (huniq : function.UniqueAddresses) :
    (∀ i ∈ function.instructions, i.isTerminator = false →
        i.id ∉ (MarkAndSweepDCE.marked function postDominatorTree).aliveInstructions →
        ((MarkAndSweepDCE.new function postDominatorTree).apply).1.Lacks i) ∧
      (∀ s ∈ function.instructions, s.opcode = Opcode.store →
        (∀ v ∈ s.operands,
          v.isGlobalVariable = false ∧ v.isArgumentPassedByPointer = false) →
        (∀ u ∈ function.instructions,
          u.id ∈ (MarkAndSweepDCE.marked function postDominatorTree).aliveInstructions →
            Value.instruction s.id ∉ u.operands) →
        s.id ∉ (MarkAndSweepDCE.marked function postDominatorTree).aliveInstructions ∧
          ((MarkAndSweepDCE.new function postDominatorTree).apply).1.Lacks s) := by
  refine ⟨fun i hi hnt hdead => apply_lacks_dead function postDominatorTree i hi hnt hdead,
    fun s hs hstore hlocal hunused => ?_⟩
  have hdead := store_not_alive function postDominatorTree huniq s hs hstore hlocal hunused
  have hnt : s.isTerminator = false := by
    simp [Instruction.isTerminator, hstore, Opcode.isTerminator]
  exact ⟨hdead, apply_lacks_dead function postDominatorTree s hs hnt hdead⟩

/-- Witness of C11: the store of `localSlot`. -/
theorem apply_deletes_dead_witness :
    Example.localSlot.UniqueAddresses ∧
      (2 : InstId) ∉
        (MarkAndSweepDCE.marked Example.localSlot Example.singleBlockTree).aliveInstructions ∧
      ((MarkAndSweepDCE.new Example.localSlot Example.singleBlockTree).apply).1.Lacks
        (Example.instruction 2 0 Opcode.store [Value.constant 7, Value.instruction 1]) :=
  ⟨by decide,
    (apply_deletes_dead Example.localSlot Example.singleBlockTree (by decide)).2
      (Example.instruction 2 0 Opcode.store [Value.constant 7, Value.instruction 1])
      (by decide) rfl (by decide) (by decide)⟩

/-- C20 (a store is never kept because of a load).  In `localSlot` (a slot is allocated, a
constant is stored to it, the slot is loaded, the loaded value is returned) `apply ( )`
deletes the store and keeps the allocation, the load and the return; and in every function
whose instructions have distinct addresses, a store none of whose operands is a global
variable or a function argument of pointer type, and which no instruction has as an operand,
is deleted by `apply ( )`. -/
theorem store_not_kept_for_load :
    (((MarkAndSweepDCE.new Example.localSlot Example.singleBlockTree).apply).1 =
        { blocks :=
            [ { id := 0
                instructions :=
                  [ Example.instruction 1 0 Opcode.alloca [Value.constant 1],
                    Example.instruction 3 0 Opcode.load [Value.instruction 1],
                    Example.instruction 4 0 Opcode.ret [Value.instruction 3] ] } ] } ∧
      ((MarkAndSweepDCE.new Example.localSlot Example.singleBlockTree).apply).2 = true) ∧
      (∀ (function : Function) (postDominatorTree : PostDominatorTree),
        function.UniqueAddresses →
        ∀ s ∈ function.instructions, s.opcode = Opcode.store →
          (∀ v ∈ s.operands,
            v.isGlobalVariable = false ∧ v.isArgumentPassedByPointer = false) →
          (∀ u ∈ function.instructions, Value.instruction s.id ∉ u.operands) →
          ((MarkAndSweepDCE.new function postDominatorTree).apply).1.Lacks s) := by
  refine ⟨by decide, ?_⟩
  intro function postDominatorTree huniq s hs hstore hlocal hunused
  have hdead := store_not_alive function postDominatorTree huniq s hs hstore hlocal
    (fun u hu _ => hunused u hu)
  have hnt : s.isTerminator = false := by
    simp [Instruction.isTerminator, hstore, Opcode.isTerminator]
  exact apply_lacks_dead function postDominatorTree s hs hnt hdead

/-- Witness of C20: the store of `localSlot`, which no instruction has as an operand. -/
theorem store_not_kept_for_load_witness :
    Example.localSlot.UniqueAddresses ∧
      (∀ u ∈ Example.localSlot.instructions, Value.instruction 2 ∉ u.operands) ∧
      ((MarkAndSweepDCE.new Example.localSlot Example.singleBlockTree).apply).1.Lacks
        (Example.instruction 2 0 Opcode.store [Value.constant 7, Value.instruction 1]) :=
  ⟨by decide, by decide,
    store_not_kept_for_load.2 Example.localSlot Example.singleBlockTree (by decide)
      (Example.instruction 2 0 Opcode.store [Value.constant 7, Value.instruction 1])
      (by decide) rfl (by decide) (by decide)⟩

/-- C14 (`aliveBasicBlocks` is derived from `aliveInstructions`): the code breaks it.  In
`merge`, when `sweep` starts, the terminator of block 1 (address 3) is in `aliveInstructions`
(it was inserted for the phi of block 3, lines 138-139) but block 1 is not in
`aliveBasicBlocks`.  In `bypass` the same happens to block 3, the immediate post-dominator of
block 0: its terminator (address 4) is live, block 3 is not in `aliveBasicBlocks`, and `sweep`
redirects the dead branch of block 0 past it to block 4. -/
theorem phi_predecessor_block_not_alive :
    (Example.merge.WellFormed ∧
      Example.merge.Contains 1 (Example.instruction 3 1 Opcode.br [Value.basicBlock 3]) ∧
      (3 : InstId) ∈
        (MarkAndSweepDCE.marked Example.merge Example.diamondTree).aliveInstructions ∧
      (1 : BlockId) ∉
        (MarkAndSweepDCE.marked Example.merge Example.diamondTree).aliveBasicBlocks) ∧
    (Example.bypass.WellFormed ∧
      Example.bypass.Contains 3 (Example.instruction 4 3 Opcode.br [Value.basicBlock 4]) ∧
      (4 : InstId) ∈
        (MarkAndSweepDCE.marked Example.bypass Example.bypassTree).aliveInstructions ∧
      (3 : BlockId) ∉
        (MarkAndSweepDCE.marked Example.bypass Example.bypassTree).aliveBasicBlocks ∧
      (Example.bypassTree.getIDom 0).chain = [3, 4] ∧
      ((MarkAndSweepDCE.new Example.bypass Example.bypassTree).apply).1.successors 0 = [4]) := by
  decide

/-! ## Any order reaches the same live set -/

theorem markLoopFifo_workList_empty (fuel : Nat) (self : MarkAndSweepDCE) (k : Nat)
    (h : self.Popped k) (hfuel : self.function.instructions.length ≤ k + fuel) :
    (self.markLoopFifo fuel).instructionWorkList = [] := by
  induction fuel generalizing self k with
  | zero =>
    have hle := Consistent.length_le h.1
    have hlen := h.2
    refine List.eq_nil_of_length_eq_zero ?_
    show self.instructionWorkList.length = 0
    omega
  | succ fuel ih =>
    unfold MarkAndSweepDCE.markLoopFifo
    split
    · next hnone => exact List.getLast?_eq_none_iff.mp hnone
    · next currentInstruction hlast =>
      have hw : self.instructionWorkList =
          self.instructionWorkList.dropLast ++ currentInstruction :: [] :=
        (List.dropLast_append_getLast? currentInstruction hlast).symm
      have hpop := take_popped self self.instructionWorkList.dropLast currentInstruction []
        k h hw
      rw [List.append_nil] at hpop
      have hp := markVisit_popped _ currentInstruction (k + 1) hpop
      refine ih _ (k + 1) hp ?_
      rw [(markVisit_pushes _ currentInstruction).function_eq]
      show self.function.instructions.length ≤ k + 1 + fuel
      omega

/-- C19 (order independence).  Let the instructions of a function have distinct addresses,
let `initialize ( )` visit them in any order, and let the loop of `mark ( )` then run for `n`
iterations, each taking any pending instruction from the work list.  Then `n` plus the
number of pending instructions is at most the number of instructions, so every such run
ends; as long as the work list is not empty an iteration is possible; and when the work list
is empty the live set has the same members as the live set computed by the code.  In
particular the first-in first-out loop ends with that live set. -/
theorem mark_order_independent (function : Function) (postDominatorTree : PostDominatorTree)
    (huniq : function.UniqueAddresses) (order : List Instruction)
    (hperm : order.Perm function.instructions) (n : Nat) (last : MarkAndSweepDCE)
    (hrun : MarkAndSweepDCE.Run n
      ((MarkAndSweepDCE.new function postDominatorTree).initializeInOrder order) last) :
    n + last.instructionWorkList.length ≤ function.instructions.length ∧
      (last.instructionWorkList ≠ [] → ∃ next, last.Takes next) ∧
      (last.instructionWorkList = [] →
        ∀ a, a ∈ last.aliveInstructions ↔
          a ∈ (MarkAndSweepDCE.marked function postDominatorTree).aliveInstructions) ∧
      ((((MarkAndSweepDCE.new function postDominatorTree).initializeInOrder
            order).markLoopFifo function.instructions.length).instructionWorkList = [] ∧
        ∀ a, a ∈ (((MarkAndSweepDCE.new function postDominatorTree).initializeInOrder
            order).markLoopFifo function.instructions.length).aliveInstructions ↔
          a ∈ (MarkAndSweepDCE.marked function postDominatorTree).aliveInstructions) := by
  have horder : ∀ i, i ∈ order ↔ i ∈ function.instructions := fun i => hperm.mem_iff
  have hpush := initializeInOrder_pushes (MarkAndSweepDCE.new function postDominatorTree) order
  have hinit := initializeInOrder_popped (MarkAndSweepDCE.new function postDominatorTree)
    order 0 (fun i hi => (horder i).mp hi) (new_popped function postDominatorTree)
  have hfun : ((MarkAndSweepDCE.new function postDominatorTree).initializeInOrder
      order).function = function := hpush.function_eq
  refine ⟨?_, ?_, ?_, ?_, ?_⟩
  · have hp := hrun.run_popped 0 hinit
    have hle := Consistent.length_le hp.1
    rw [hrun.grows.1, hfun] at hle
    have hlen := hp.2
    omega
  · intro hne
    cases hw : last.instructionWorkList with
    | nil => exact absurd hw hne
    | cons currentInstruction rest =>
      exact ⟨_, MarkAndSweepDCE.Takes.take last [] currentInstruction rest hw⟩
  · intro hempty a
    rw [MarkAndSweepDCE.Run.alive_iff function postDominatorTree huniq order horder n last
      hrun hempty a, marked_alive_iff function postDominatorTree huniq a]
  · apply markLoopFifo_workList_empty _ _ 0 hinit
    rw [hfun]; omega
  · intro a
    obtain ⟨m, _, hfifo⟩ := markLoopFifo_run function.instructions.length
      ((MarkAndSweepDCE.new function postDominatorTree).initializeInOrder order)
    have hempty : (((MarkAndSweepDCE.new function postDominatorTree).initializeInOrder
        order).markLoopFifo function.instructions.length).instructionWorkList = [] := by
      apply markLoopFifo_workList_empty _ _ 0 hinit
      rw [hfun]; omega
    rw [MarkAndSweepDCE.Run.alive_iff function postDominatorTree huniq order horder m _
      hfifo hempty a, marked_alive_iff function postDominatorTree huniq a]

/-- Witness of C19: in `merge`, `initialize ( )` visits the instructions in reverse order
and the loop takes the oldest pending instruction six times. -/
theorem mark_order_independent_witness :
    Example.merge.UniqueAddresses ∧
      Example.merge.instructions.reverse.Perm Example.merge.instructions ∧
      (((MarkAndSweepDCE.new Example.merge Example.diamondTree).initializeInOrder
          Example.merge.instructions.reverse).markLoopFifo 6).instructionWorkList = [] ∧
      ∀ a, a ∈ (((MarkAndSweepDCE.new Example.merge Example.diamondTree).initializeInOrder
          Example.merge.instructions.reverse).markLoopFifo 6).aliveInstructions ↔
        a ∈ (MarkAndSweepDCE.marked Example.merge Example.diamondTree).aliveInstructions := by
  obtain ⟨n, _, hrun⟩ := markLoopFifo_run 6
    ((MarkAndSweepDCE.new Example.merge Example.diamondTree).initializeInOrder
      Example.merge.instructions.reverse)
  exact ⟨by decide, List.reverse_perm _, by decide,
    (mark_order_independent Example.merge Example.diamondTree (by decide)
      Example.merge.instructions.reverse (List.reverse_perm _) n _ hrun).2.2.1 (by decide)⟩

/-! ## Pushes and pops of the work list -/

theorem MarkAndSweepDCE.Appends.appends_refl (self : MarkAndSweepDCE) : self.Appends self :=
  ⟨[], rfl, rfl⟩

theorem MarkAndSweepDCE.Appends.appends_trans {a b c : MarkAndSweepDCE} (hab : a.Appends b)
    (hbc : b.Appends c) : a.Appends c := by
  obtain ⟨p1, hw1, ha1⟩ := hab
  obtain ⟨p2, hw2, ha2⟩ := hbc
  refine ⟨p2 ++ p1, ?_, ?_⟩
  · rw [hw2, hw1, List.append_assoc]
  · rw [ha2, ha1, List.map_append, List.append_assoc]

theorem foldl_appends {α : Type} (step : MarkAndSweepDCE → α → MarkAndSweepDCE)
    (hstep : ∀ (state : MarkAndSweepDCE) (a : α), state.Appends (step state a)) (l : List α)
    (self : MarkAndSweepDCE) : self.Appends (l.foldl step self) := by
  induction l generalizing self with
  | nil => exact MarkAndSweepDCE.Appends.appends_refl self
  | cons a l ih => exact (hstep self a).appends_trans (ih (step self a))

theorem markInstruction_appends (self : MarkAndSweepDCE) (instruction : Instruction) :
    self.Appends (self.markInstruction instruction) := by
  unfold MarkAndSweepDCE.markInstruction
  split
  · exact MarkAndSweepDCE.Appends.appends_refl self
  · exact ⟨[instruction], rfl, rfl⟩

theorem markOperand_appends (self : MarkAndSweepDCE) (value : Value) :
    self.Appends (self.markOperand value) := by
  unfold MarkAndSweepDCE.markOperand
  cases value with
  | instruction id =>
    dsimp only
    cases self.function.getInstruction id with
    | none => exact MarkAndSweepDCE.Appends.appends_refl self
    | some operand => exact markInstruction_appends self operand
  | _ => exact MarkAndSweepDCE.Appends.appends_refl self

theorem markPredecessor_appends (self : MarkAndSweepDCE) (basicBlock : BlockId) :
    self.Appends (self.markPredecessor basicBlock) := by
  unfold MarkAndSweepDCE.markPredecessor
  cases self.function.getTerminator basicBlock with
  | none => exact MarkAndSweepDCE.Appends.appends_refl self
  | some terminator =>
    dsimp only
    split
    · exact MarkAndSweepDCE.Appends.appends_refl self
    · exact ⟨[terminator], rfl, rfl⟩

theorem markControlDependency_appends (self : MarkAndSweepDCE) (basicBlock : BlockId) :
    self.Appends (self.markControlDependency basicBlock) := by
  unfold MarkAndSweepDCE.markControlDependency
  cases self.function.getTerminator basicBlock with
  | none => exact MarkAndSweepDCE.Appends.appends_refl self
  | some terminator => exact markInstruction_appends self terminator

theorem markOperands_appends (self : MarkAndSweepDCE) (currentInstruction : Instruction) :
    self.Appends (self.markOperands currentInstruction) :=
  foldl_appends _ markOperand_appends _ self

theorem markPhiPredecessors_appends (self : MarkAndSweepDCE)
    (currentInstruction : Instruction) :
    self.Appends (self.markPhiPredecessors currentInstruction) := by
  unfold MarkAndSweepDCE.markPhiPredecessors
  split
  · exact foldl_appends _ markPredecessor_appends _ self
  · exact MarkAndSweepDCE.Appends.appends_refl self

theorem markControlDependencies_appends (self : MarkAndSweepDCE)
    (currentInstruction : Instruction) :
    self.Appends (self.markControlDependencies currentInstruction) :=
  foldl_appends _ markControlDependency_appends _ self

theorem markVisit_appends (self : MarkAndSweepDCE) (currentInstruction : Instruction) :
    self.Appends (self.markVisit currentInstruction) :=
  ((markOperands_appends self currentInstruction).appends_trans
    (markPhiPredecessors_appends _ currentInstruction)).appends_trans
    (markControlDependencies_appends _ currentInstruction)

theorem initializeLiveSet_appends (self : MarkAndSweepDCE) :
    self.Appends self.initializeLiveSet := by
  unfold MarkAndSweepDCE.initializeLiveSet
  apply foldl_appends
  intro state instruction
  dsimp only
  split
  · exact markInstruction_appends state instruction
  · exact MarkAndSweepDCE.Appends.appends_refl state

/-- What was pushed is what `pushedSince` reads off the work list. -/
theorem MarkAndSweepDCE.Appends.pushedSince_eq {state next : MarkAndSweepDCE}
    (h : state.Appends next) :
    next.instructionWorkList = next.pushedSince state ++ state.instructionWorkList ∧
      next.aliveInstructions =
        (next.pushedSince state).map Instruction.id ++ state.aliveInstructions := by
  obtain ⟨pushed, hw, ha⟩ := h
  have hp : next.pushedSince state = pushed := by
    unfold MarkAndSweepDCE.pushedSince
    rw [hw, List.length_append, Nat.add_sub_cancel, List.take_left]
  rw [hp]
  exact ⟨hw, ha⟩

theorem markLoopPushed_alive (fuel : Nat) (self : MarkAndSweepDCE) :
    (self.markLoop fuel).aliveInstructions =
      (self.markLoopPushed fuel).map Instruction.id ++ self.aliveInstructions := by
  induction fuel generalizing self with
  | zero => simp [MarkAndSweepDCE.markLoop, MarkAndSweepDCE.markLoopPushed]
  | succ fuel ih =>
    unfold MarkAndSweepDCE.markLoop MarkAndSweepDCE.markLoopPushed
    split
    · simp
    · next currentInstruction rest hw =>
      have hv := (markVisit_appends { self with instructionWorkList := rest }
        currentInstruction).pushedSince_eq
      rw [ih, hv.2, List.map_append, List.append_assoc]

theorem markLoop_stable (n : Nat) (self : MarkAndSweepDCE)
    (h : (self.markLoop n).instructionWorkList = []) (m : Nat) (hm : n ≤ m) :
    self.markLoop m = self.markLoop n := by
  induction n generalizing self m with
  | zero =>
    have hw : self.instructionWorkList = [] := h
    cases m with
    | zero => rfl
    | succ m => simp [MarkAndSweepDCE.markLoop, hw]
  | succ n ih =>
    cases m with
    | zero => omega
    | succ m =>
      unfold MarkAndSweepDCE.markLoop at h ⊢
      split
      · rfl
      · next currentInstruction rest hw =>
        simp only [hw] at h
        exact ih _ h m (Nat.le_of_succ_le_succ hm)

theorem markLoopPopped_perm (fuel : Nat) (self : MarkAndSweepDCE) (done : List InstId)
    (h : (done ++ self.instructionWorkList.map Instruction.id).Perm self.aliveInstructions) :
    ((done ++ (self.markLoopPopped fuel).map Instruction.id) ++
        (self.markLoop fuel).instructionWorkList.map Instruction.id).Perm
      (self.markLoop fuel).aliveInstructions := by
  induction fuel generalizing self done with
  | zero => simpa [MarkAndSweepDCE.markLoop, MarkAndSweepDCE.markLoopPopped] using h
  | succ fuel ih =>
    unfold MarkAndSweepDCE.markLoop MarkAndSweepDCE.markLoopPopped
    split
    · next hw => simpa [hw] using h
    · next currentInstruction rest hw =>
      obtain ⟨pushed, hpw, hpa⟩ := markVisit_appends
        { self with instructionWorkList := rest } currentInstruction
      have hnext : ((done ++ [currentInstruction.id]) ++
          (MarkAndSweepDCE.markVisit { self with instructionWorkList := rest }
            currentInstruction).instructionWorkList.map Instruction.id).Perm
          (MarkAndSweepDCE.markVisit { self with instructionWorkList := rest }
            currentInstruction).aliveInstructions := by
        rw [hpw, hpa]
        rw [hw] at h
        simp only [List.map_append, List.map_cons, List.append_assoc, List.singleton_append]
          at h ⊢
        have h1 : (done ++ currentInstruction.id ::
            (List.map Instruction.id pushed ++ List.map Instruction.id rest)).Perm
            (List.map Instruction.id pushed ++
              (done ++ currentInstruction.id :: List.map Instruction.id rest)) := by
          have e1 : done ++ currentInstruction.id ::
              (List.map Instruction.id pushed ++ List.map Instruction.id rest) =
              (done ++ [currentInstruction.id]) ++
                (List.map Instruction.id pushed ++ List.map Instruction.id rest) := by simp
          have e2 : List.map Instruction.id pushed ++
              (done ++ currentInstruction.id :: List.map Instruction.id rest) =
              List.map Instruction.id pushed ++
                ((done ++ [currentInstruction.id]) ++ List.map Instruction.id rest) := by simp
          rw [e1, e2, ← List.append_assoc, ← List.append_assoc]
          exact List.Perm.append_right _ List.perm_append_comm
        exact h1.trans (List.Perm.append_left _ h)
      have := ih _ (done ++ [currentInstruction.id]) hnext
      simpa [List.append_assoc] using this

theorem markLoopPopped_mem (fuel : Nat) (self : MarkAndSweepDCE) (k : Nat)
    (h : self.Popped k) :
    ∀ p ∈ self.markLoopPopped fuel, p ∈ self.function.instructions := by
  induction fuel generalizing self k with
  | zero => intro p hp; simp [MarkAndSweepDCE.markLoopPopped] at hp
  | succ fuel ih =>
    unfold MarkAndSweepDCE.markLoopPopped
    split
    · intro p hp; exact absurd hp (List.not_mem_nil _)
    · next currentInstruction rest hw =>
      intro p hp
      rcases List.mem_cons.mp hp with rfl | hp
      · exact (h.1.workList_mem p (by rw [hw]; exact List.mem_cons_self _ _)).1
      · have hpop := pop_popped self currentInstruction rest k h hw
        have hv := markVisit_popped _ currentInstruction (k + 1) hpop
        have := ih _ (k + 1) hv p hp
        rw [(markVisit_pushes _ currentInstruction).function_eq] at this
        exact this

theorem marked_consistent (function : Function) (postDominatorTree : PostDominatorTree) :
    (MarkAndSweepDCE.marked function postDominatorTree).Consistent := by
  have h := initializeLiveSet_popped _ 0 (new_popped function postDominatorTree)
  refine (markLoop_workList_empty _ _ 0 h ?_).2
  simp

/-- C17 (each instruction is enqueued at most once).  The list of all pushes on the work list
during `initialize ( )` and `mark ( )` is, address by address and in the same order, the final
`aliveInstructions`: an instruction is pushed exactly when it is inserted into the set.  No
address occurs twice in it.  During `initialize ( )` and during each iteration of the loop the
work list and the set grow by the same instructions, and the set never loses a member. -/
theorem worklist_pushes_once (function : Function) (postDominatorTree : PostDominatorTree) :
    (MarkAndSweepDCE.pushedInstructions function postDominatorTree).map Instruction.id =
        (MarkAndSweepDCE.marked function postDominatorTree).aliveInstructions ∧
      ((MarkAndSweepDCE.pushedInstructions function postDominatorTree).map
        Instruction.id).Nodup ∧
      (∀ self : MarkAndSweepDCE, self.Appends self.initializeLiveSet) ∧
      (∀ (self : MarkAndSweepDCE) (currentInstruction : Instruction),
        self.Appends (self.markVisit currentInstruction)) ∧
      (∀ (self : MarkAndSweepDCE) (fuel : Nat),
        self.aliveInstructions ⊆ (self.markLoop fuel).aliveInstructions) := by
  have heq : (MarkAndSweepDCE.pushedInstructions function postDominatorTree).map
      Instruction.id = (MarkAndSweepDCE.marked function postDominatorTree).aliveInstructions := by
    have hinit := (initializeLiveSet_appends
      (MarkAndSweepDCE.new function postDominatorTree)).pushedSince_eq
    unfold MarkAndSweepDCE.pushedInstructions MarkAndSweepDCE.marked MarkAndSweepDCE.mark
    rw [markLoopPushed_alive, hinit.2, List.map_append]
    simp [MarkAndSweepDCE.new]
  refine ⟨heq, ?_, initializeLiveSet_appends, markVisit_appends,
    fun self fuel => (markLoop_grows fuel self).2.2.1⟩
  rw [heq]
  exact (marked_consistent function postDominatorTree).alive_nodup

/-- C18 (termination).  The loop of `mark ( )` ends with an empty work list within as many
iterations as the function has instructions, and more iterations change nothing; the popped
instructions are instructions of the function, no two of them have the same address, there
are at most as many as the function has instructions, and their addresses are the members
of the final live set. -/
theorem mark_terminates (function : Function) (postDominatorTree : PostDominatorTree) :
    (MarkAndSweepDCE.marked function postDominatorTree).instructionWorkList = [] ∧
      (∀ fuel, function.instructions.length ≤ fuel →
        (MarkAndSweepDCE.new function postDominatorTree).initializeLiveSet.markLoop fuel =
          MarkAndSweepDCE.marked function postDominatorTree) ∧
      (MarkAndSweepDCE.poppedInstructions function postDominatorTree).length ≤
        function.instructions.length ∧
      ((MarkAndSweepDCE.poppedInstructions function postDominatorTree).map
        Instruction.id).Nodup ∧
      (∀ p ∈ MarkAndSweepDCE.poppedInstructions function postDominatorTree,
        p ∈ function.instructions) ∧
      ((MarkAndSweepDCE.poppedInstructions function postDominatorTree).map
        Instruction.id).Perm
        (MarkAndSweepDCE.marked function postDominatorTree).aliveInstructions := by
  have hempty := mark_workList_empty function postDominatorTree
  have hfun : (MarkAndSweepDCE.new function postDominatorTree).initializeLiveSet.function =
      function := (initializeLiveSet_pushes _).function_eq
  have hcons := marked_consistent function postDominatorTree
  have hinitp := initializeLiveSet_popped _ 0 (new_popped function postDominatorTree)
  have hperm : ((MarkAndSweepDCE.poppedInstructions function postDominatorTree).map
      Instruction.id).Perm
      (MarkAndSweepDCE.marked function postDominatorTree).aliveInstructions := by
    obtain ⟨pushed, hw, ha⟩ := initializeLiveSet_appends
      (MarkAndSweepDCE.new function postDominatorTree)
    have h0 : (([] : List InstId) ++
        (MarkAndSweepDCE.new function postDominatorTree).initializeLiveSet.instructionWorkList.map
          Instruction.id).Perm
        (MarkAndSweepDCE.new function postDominatorTree).initializeLiveSet.aliveInstructions := by
      rw [hw, ha]
      simp [MarkAndSweepDCE.new]
    have h1 := markLoopPopped_perm
      (MarkAndSweepDCE.new function postDominatorTree).initializeLiveSet.function.instructions.length
      _ [] h0
    have hempty2 : ((MarkAndSweepDCE.new function postDominatorTree).initializeLiveSet.markLoop
        (MarkAndSweepDCE.new function
          postDominatorTree).initializeLiveSet.function.instructions.length).instructionWorkList
        = [] := hempty
    rw [hempty2] at h1
    simpa [MarkAndSweepDCE.poppedInstructions] using h1
  refine ⟨hempty, ?_, ?_, ?_, ?_, hperm⟩
  · intro fuel hfuel
    have hm : MarkAndSweepDCE.marked function postDominatorTree =
        (MarkAndSweepDCE.new function postDominatorTree).initializeLiveSet.markLoop
          function.instructions.length := by
      unfold MarkAndSweepDCE.marked MarkAndSweepDCE.mark
      rw [hfun]
    rw [hm]
    apply markLoop_stable _ _ _ fuel hfuel
    rw [← hm]
    exact hempty
  · have hlen : (MarkAndSweepDCE.poppedInstructions function postDominatorTree).length =
        (MarkAndSweepDCE.marked function postDominatorTree).aliveInstructions.length := by
      have := hperm.length_eq
      simpa using this
    have hle := Consistent.length_le hcons
    rw [marked_function] at hle
    omega
  · exact hperm.nodup_iff.mpr hcons.alive_nodup
  · intro p hp
    have := markLoopPopped_mem _ _ 0 hinitp p hp
    rw [hfun] at this
    exact this

/-! ## A second run -/

/-- C12 (idempotence): the code breaks it.  `retry` is well formed, each of its blocks can be
reached from block 0, and `retryTree` holds its post-dominator tree and control dependencies.
In the first `apply ( )` the terminator of block 3 (address 5) is inserted into
`aliveInstructions` for the phi of block 1 (lines 138-139) but block 3 is not inserted into
`aliveBasicBlocks`, so `sweep` redirects the dead branch of block 2 past block 3, its immediate
post-dominator, to block 4: the result is `retryAfter`.  `retryTreeAfter` holds the
post-dominator tree and control dependencies of `retryAfter`; block 1 is no longer control
dependent on itself, and the second `apply ( )` deletes the branch of block 1 (address 3),
replaces it by a branch to block 4 and returns `changed == true`. -/
theorem second_apply_changes :
    (Example.retry.WellFormed ∧
      (∀ block ∈ Example.retry.blockIds, Example.retry.Reachable block) ∧
      Example.retryTree.ComputedFor Example.retry) ∧
    ((5 : InstId) ∈
        (MarkAndSweepDCE.marked Example.retry Example.retryTree).aliveInstructions ∧
      (3 : BlockId) ∉
        (MarkAndSweepDCE.marked Example.retry Example.retryTree).aliveBasicBlocks ∧
      (Example.retryTree.getIDom 2).chain = [3, 4] ∧
      (MarkAndSweepDCE.new Example.retry Example.retryTree).apply =
        (Example.retryAfter, true)) ∧
    (Example.retryAfter.WellFormed ∧
      Example.retryTreeAfter.ComputedFor Example.retryAfter) ∧
    (((MarkAndSweepDCE.new Example.retryAfter Example.retryTreeAfter).apply).2 = true ∧
      Example.retryAfter.Contains 1
        (Example.instruction 3 1 Opcode.br
          [Value.argument 0 false, Value.basicBlock 2, Value.basicBlock 4]) ∧
      ((MarkAndSweepDCE.new Example.retryAfter Example.retryTreeAfter).apply).1.Lacks
        (Example.instruction 3 1 Opcode.br
          [Value.argument 0 false, Value.basicBlock 2, Value.basicBlock 4]) ∧
      ((MarkAndSweepDCE.new Example.retryAfter
        Example.retryTreeAfter).apply).1.successors 1 = [4]) := by
  have h01 : Example.retry.Edge 0 1 := by
    show (1 : BlockId) ∈ Example.retry.successors 0
    decide
  have h12 : Example.retry.Edge 1 2 := by
    show (2 : BlockId) ∈ Example.retry.successors 1
    decide
  have h14 : Example.retry.Edge 1 4 := by
    show (4 : BlockId) ∈ Example.retry.successors 1
    decide
  have h23 : Example.retry.Edge 2 3 := by
    show (3 : BlockId) ∈ Example.retry.successors 2
    decide
  have hreach : ∀ block ∈ Example.retry.blockIds, Example.retry.Reachable block := by
    intro block hblock
    have hcases : block = 0 ∨ block = 1 ∨ block = 2 ∨ block = 3 ∨ block = 4 := by
      simpa [Function.blockIds, Example.retry] using hblock
    rcases hcases with rfl | rfl | rfl | rfl | rfl
    · exact ⟨_, rfl, Relation.ReflTransGen.refl⟩
    · exact ⟨_, rfl, Relation.ReflTransGen.single h01⟩
    · exact ⟨_, rfl, (Relation.ReflTransGen.single h01).tail h12⟩
    · exact ⟨_, rfl, ((Relation.ReflTransGen.single h01).tail h12).tail h23⟩
    · exact ⟨_, rfl, (Relation.ReflTransGen.single h01).tail h14⟩
  exact ⟨⟨by decide, hreach, by decide⟩, by decide, by decide, by decide⟩

end DCE
